import Mathlib

/-!
Shallow embedding of the core of the repository (src-tauri/src): the
hash-chained audit trail and its verifier (`database_sqlite.rs`), the
contention-retry wrapper `execute_with_retry`, schema initialization
(`Database::new` / `create_tables`), and the backup/restore component
(`backup.rs`).  SHA-256 is modelled as an abstract function argument
`hash : String → String`; theorems that need collision-freeness take an
injectivity hypothesis.  Machine strings, rows and archives are modelled
with Lean `String`, structures and lists.
-/

/-- The all-zero sentinel used as `previous_hash` of the first audit entry
(`get_last_audit_hash`, `verify_audit_chain`). -/
def sentinelHash : String :=
  "0000000000000000000000000000000000000000000000000000000000000000"

/-- One row of the `audit_logs` table as persisted (struct `AuditLog` in
`database_sqlite.rs`, at the storage level): `timestamp` is the stored
RFC-3339 text, `is_success` the stored BOOLEAN column value (an SQLite
integer — rusqlite materializes it as `value ≠ 0`). -/
structure AuditLog where
  sequence_id : Int
  id : String
  user_id : String
  username : String
  action : String
  resource_type : String
  resource_id : Option String
  resource_name : Option String
  ip_address : Option String
  user_agent : Option String
  file_hash : Option String
  previous_hash : String
  current_hash : String
  metadata : String
  timestamp : String
  is_success : Int
deriving DecidableEq, Inhabited

/-- Rust's `Option::as_deref().unwrap_or("")` used when serializing optional
fields into the digest input. -/
def orEmpty (o : Option String) : String := o.getD ""

/-- Rust's `Display` for `bool`, used for `is_success` in the digest
input. -/
def boolStr (b : Bool) : String := if b then "true" else "false"

/-- rusqlite's `FromSql` for `bool`: a stored BOOLEAN materializes as
`value ≠ 0`. -/
def sqlBool (v : Int) : Bool := decide (v ≠ 0)

/-- `format!("{}|{}|...|{}", ...)`: the fields joined by `'|'`. -/
def pipeJoin : List String → String
  | [] => ""
  | [x] => x
  | x :: y :: xs => x ++ "|" ++ pipeJoin (y :: xs)

/-- The 13 serialized components of the digest input, in the order of the
`format!` call in `create_audit_log` / `verify_audit_chain`.  `canonTs` is
the canonical re-serialization of the row's timestamp
(`log.timestamp.to_rfc3339()` of the parsed stored text), and `is_success`
enters as the materialized boolean.  Note that `sequence_id` and
`user_agent` do not appear. -/
def auditComps (l : AuditLog) (canonTs : String) : List String :=
  [l.id, l.user_id, l.username, l.action, l.resource_type,
   orEmpty l.resource_id, orEmpty l.resource_name, orEmpty l.ip_address,
   orEmpty l.file_hash, l.previous_hash, l.metadata, canonTs,
   boolStr (sqlBool l.is_success)]

/-- The `hash_data` string rebuilt by `verify_audit_chain` before hashing,
over the materialized row (canonical timestamp, boolean `is_success`). -/
def hash_data (l : AuditLog) (canonTs : String) : String :=
  pipeJoin (auditComps l canonTs)

/-- Insert a row into a list kept ascending by `sequence_id`. -/
def insertBySeq (r : AuditLog) : List AuditLog → List AuditLog
  | [] => [r]
  | x :: xs =>
    if r.sequence_id ≤ x.sequence_id then r :: x :: xs else x :: insertBySeq r xs

/-- The `ORDER BY sequence_id ASC` read of the whole `audit_logs` table. -/
def sortBySeq (l : List AuditLog) : List AuditLog := l.foldr insertBySeq []

/-- The scan loop of `verify_audit_chain`: each row is first materialized
(its stored timestamp text parsed with `DateTime::parse_from_rfc3339` and
re-serialized with `.to_rfc3339()` — modelled by `parseTs`, whose `none`
makes the whole scan surface a `SqliteResult` error), then checked:
(a) consecutive sequence, (b) hash link, (c) digest recomputed over the
materialized row; the scan stops with `some false` at the first violation
and with `none` at the first row that fails to materialize. -/
def verifyFrom (hash : String → String) (parseTs : String → Option String) :
    String → Int → List AuditLog → Option Bool
  | _, _, [] => some true
  | prev, expected, l :: rest =>
    match parseTs l.timestamp with
    | none => none
    | some canon =>
      if l.sequence_id ≠ expected then some false
      else if l.previous_hash ≠ prev then some false
      else if hash (hash_data l canon) ≠ l.current_hash then some false
      else verifyFrom hash parseTs l.current_hash (expected + 1) rest

/-- `verify_audit_chain`: sorts the stored rows ascending by `sequence_id`
(the SQL `ORDER BY`) and runs the scan from the sentinel with expected
sequence 1; `some true`/`some false` are `Ok(true)`/`Ok(false)`, `none` a
`SqliteResult` error. -/
def verify_audit_chain (hash : String → String)
    (parseTs : String → Option String) (table : List AuditLog) : Option Bool :=
  verifyFrom hash parseTs sentinelHash 1 (sortBySeq table)

/-- Same scan, but returning the `sequence_id` the code reports in its
`log::error!` message at the first violating row: `some none` when the
chain is accepted, `some (some s)` when row `s` fails a check, `none` when
a row fails to materialize. -/
def verifyReportFrom (hash : String → String)
    (parseTs : String → Option String) :
    String → Int → List AuditLog → Option (Option Int)
  | _, _, [] => some none
  | prev, expected, l :: rest =>
    match parseTs l.timestamp with
    | none => none
    | some canon =>
      if l.sequence_id ≠ expected then some (some l.sequence_id)
      else if l.previous_hash ≠ prev then some (some l.sequence_id)
      else if hash (hash_data l canon) ≠ l.current_hash then
        some (some l.sequence_id)
      else verifyReportFrom hash parseTs l.current_hash (expected + 1) rest

/-- The reported first offending `sequence_id` of `verify_audit_chain`. -/
def verifyReport (hash : String → String) (parseTs : String → Option String)
    (table : List AuditLog) : Option (Option Int) :=
  verifyReportFrom hash parseTs sentinelHash 1 (sortBySeq table)

/-- The caller-supplied data of one `create_audit_log` call (everything the
function receives, after `metadata` has been rendered to its JSON string and
the fresh uuid and timestamp have been drawn). -/
structure AuditInput where
  id : String
  user_id : String
  username : String
  action : String
  resource_type : String
  resource_id : Option String
  resource_name : Option String
  ip_address : Option String
  user_agent : Option String
  file_hash : Option String
  metadata : String
  timestamp : String
  is_success : Bool
deriving DecidableEq, Inhabited

/-- The row `SELECT current_hash FROM audit_logs ORDER BY sequence_id DESC
LIMIT 1` reads: the stored row with the greatest `sequence_id`. -/
def maxSeqRow (t : List AuditLog) : Option AuditLog :=
  t.foldl
    (fun acc r =>
      match acc with
      | none => some r
      | some m => if r.sequence_id ≤ m.sequence_id then some m else some r)
    none

/-- `get_last_audit_hash`: `current_hash` of the highest-`sequence_id` row,
or the all-zero sentinel when the table is empty. -/
def lastAuditHash (t : List AuditLog) : String :=
  ((maxSeqRow t).map (·.current_hash)).getD sentinelHash

/-- The `sequence_id` SQLite's AUTOINCREMENT assigns to the next insert
(no row of `audit_logs` is ever deleted: the `prevent_audit_log_delete`
trigger aborts deletes). -/
def nextSeq (t : List AuditLog) : Int :=
  ((maxSeqRow t).map (·.sequence_id)).getD 0 + 1

/-- The digest-input components of a new entry, as `create_audit_log`
serializes them (with the just-read `previous_hash` in tenth position). -/
def inpComps (inp : AuditInput) (prev : String) : List String :=
  [inp.id, inp.user_id, inp.username, inp.action, inp.resource_type,
   orEmpty inp.resource_id, orEmpty inp.resource_name, orEmpty inp.ip_address,
   orEmpty inp.file_hash, prev, inp.metadata, inp.timestamp,
   boolStr inp.is_success]

/-- The row `create_audit_log` builds and inserts, given the last hash of
the chain and the auto-assigned sequence number. -/
def mkLog (hash : String → String) (prev : String) (seq : Int)
    (inp : AuditInput) : AuditLog :=
  { sequence_id := seq
    id := inp.id
    user_id := inp.user_id
    username := inp.username
    action := inp.action
    resource_type := inp.resource_type
    resource_id := inp.resource_id
    resource_name := inp.resource_name
    ip_address := inp.ip_address
    user_agent := inp.user_agent
    file_hash := inp.file_hash
    previous_hash := prev
    current_hash := hash (pipeJoin (inpComps inp prev))
    metadata := inp.metadata
    timestamp := inp.timestamp
    is_success := if inp.is_success then 1 else 0 }

/-- The successful path of one `create_audit_log` call: read the last hash,
build the new row, let the store append it with the next `sequence_id`. -/
def appendAudit (hash : String → String) (t : List AuditLog)
    (inp : AuditInput) : List AuditLog :=
  t ++ [mkLog hash (lastAuditHash t) (nextSeq t) inp]

/-- Total indexing helper for stating row-wise chain conditions. -/
def rowAt (l : List AuditLog) (i : Nat) : AuditLog := (l.get? i).getD default

/-- A concrete valid one-entry chain, used to exhibit undetected mutations
(the digest is instantiated with the identity function on strings). -/
def cexBase : AuditLog :=
  { sequence_id := 1
    id := "a1b2"
    user_id := "u1"
    username := "alice"
    action := "LOGIN"
    resource_type := "auth"
    resource_id := none
    resource_name := none
    ip_address := none
    user_agent := none
    file_hash := none
    previous_hash := sentinelHash
    current_hash := ""
    metadata := "{}"
    timestamp := "2024-01-01T00:00:00+00:00"
    is_success := 1 }

/-- The row above with its correct stored digest filled in (digest over
the materialized row, whose canonical timestamp is the stored text). -/
def cexRow : AuditLog :=
  { cexBase with current_hash := hash_data cexBase cexBase.timestamp }

/-- `cexRow` with only its `user_agent` column overwritten (the simulated
tampering). -/
def cexMut : AuditLog := { cexRow with user_agent := some "EvilAgent" }

/-- `cexRow` with only its `timestamp` column rewritten to an equal-instant
RFC-3339 spelling (`Z` for `+00:00`). -/
def cexTsMut : AuditLog := { cexRow with timestamp := "2024-01-01T00:00:00Z" }

/-- A concrete canonicalizer behaving like chrono on the two timestamp
texts involved: both spellings parse and re-serialize to the `+00:00`
form. -/
def cexParse : String → Option String := fun s =>
  if s = "2024-01-01T00:00:00Z" then some "2024-01-01T00:00:00+00:00"
  else some s

/-- Claim C10: the audit digest is independent of `user_agent` and
`sequence_id` — the digest input (`hash_data`) recomputed by
`verify_audit_chain` is unchanged when only those two fields change, and
two entries created by `create_audit_log` whose inputs differ only in
`user_agent` get the same `current_hash`. -/
theorem audit_hash_ignores_user_agent_and_sequence :
    (∀ (l : AuditLog) (canonTs : String) (ua : Option String) (s : Int),
      hash_data { l with user_agent := ua, sequence_id := s } canonTs =
        hash_data l canonTs) ∧
    (∀ (hash : String → String) (prev : String) (s s' : Int)
        (inp : AuditInput) (ua : Option String),
      (mkLog hash prev s { inp with user_agent := ua }).current_hash =
        (mkLog hash prev s' inp).current_hash) := by
  exact ⟨fun l canonTs ua s => rfl, fun hash prev s s' inp ua => rfl⟩

/-- Claim C1, counterexample: a stored one-entry chain that
`verify_audit_chain` accepts is still accepted after its single row has
only its `user_agent` column overwritten, and also after only its
`timestamp` column is rewritten to an equal-instant RFC-3339 spelling
(`Z` for `+00:00`, which the verifier re-canonicalizes before hashing) —
so mutating *any* single field does not always make verification fail. -/
theorem audit_user_agent_mutation_undetected :
    verify_audit_chain (fun s => s) cexParse [cexRow] = some true ∧
    cexMut ≠ cexRow ∧
    cexMut = { cexRow with user_agent := cexMut.user_agent } ∧
    verify_audit_chain (fun s => s) cexParse ([cexRow].set 0 cexMut) =
      some true ∧
    cexTsMut ≠ cexRow ∧
    cexTsMut = { cexRow with timestamp := cexTsMut.timestamp } ∧
    verify_audit_chain (fun s => s) cexParse ([cexRow].set 0 cexTsMut) =
      some true := by
  refine ⟨by decide, by decide, rfl, by decide, by decide, rfl, by decide⟩

/-- Right cancellation for string concatenation. -/
theorem strAppendRightCancel {a b c : String} (h : a ++ c = b ++ c) : a = b := by
  apply String.ext
  have hd : a.data ++ c.data = b.data ++ c.data := by
    simpa [String.data_append] using congrArg String.data h
  exact List.append_left_injective c.data hd

/-- Left cancellation for string concatenation. -/
theorem strAppendLeftCancel {a b c : String} (h : c ++ a = c ++ b) : a = b := by
  apply String.ext
  have hd : c.data ++ a.data = c.data ++ b.data := by
    simpa [String.data_append] using congrArg String.data h
  exact List.append_right_injective c.data hd

/-- Two pipe-joined lists that differ in their head differ as strings. -/
theorem pipeJoin_ne_head (x y : String) (xs : List String) (h : x ≠ y) :
    pipeJoin (x :: xs) ≠ pipeJoin (y :: xs) := by
  cases xs with
  | nil => simpa [pipeJoin] using h
  | cons z zs =>
    intro he
    apply h
    have h1 : (x ++ "|") ++ pipeJoin (z :: zs) = (y ++ "|") ++ pipeJoin (z :: zs) := by
      simpa [pipeJoin, String.append_assoc] using he
    have h2 : x ++ "|" = y ++ "|" := strAppendRightCancel h1
    exact strAppendRightCancel h2

/-- Two pipe-joined lists with equal heads and equal lengths whose tails
join differently differ as strings. -/
theorem pipeJoin_ne_tail (x : String) (xs ys : List String)
    (hl : xs.length = ys.length) (h : pipeJoin xs ≠ pipeJoin ys) :
    pipeJoin (x :: xs) ≠ pipeJoin (x :: ys) := by
  cases xs with
  | nil =>
    cases ys with
    | nil => exact absurd rfl h
    | cons b bs => simp at hl
  | cons a as =>
    cases ys with
    | nil => simp at hl
    | cons b bs =>
      intro he
      apply h
      have h1 : (x ++ "|") ++ pipeJoin (a :: as) = (x ++ "|") ++ pipeJoin (b :: bs) := by
        simpa [pipeJoin, String.append_assoc] using he
      exact strAppendLeftCancel h1

/-- `boolStr` is injective. -/
theorem boolStr_inj {a b : Bool} (h : boolStr a = boolStr b) : a = b := by
  cases a <;> cases b <;> simp_all [boolStr]

/-- Changing only `id` changes the digest input. -/
theorem hash_data_ne_id (r : AuditLog) (v : String) (canonTs : String)
    (h : v ≠ r.id) :
    hash_data { r with id := v } canonTs ≠ hash_data r canonTs := by
  simp only [hash_data, auditComps]
  exact pipeJoin_ne_head _ _ _ h

/-- Changing only `user_id` changes the digest input. -/
theorem hash_data_ne_user_id (r : AuditLog) (v : String) (canonTs : String)
    (h : v ≠ r.user_id) :
    hash_data { r with user_id := v } canonTs ≠ hash_data r canonTs := by
  simp only [hash_data, auditComps]
  exact pipeJoin_ne_tail _ _ _ rfl (pipeJoin_ne_head _ _ _ h)

/-- Changing only `username` changes the digest input. -/
theorem hash_data_ne_username (r : AuditLog) (v : String) (canonTs : String)
    (h : v ≠ r.username) :
    hash_data { r with username := v } canonTs ≠ hash_data r canonTs := by
  simp only [hash_data, auditComps]
  exact pipeJoin_ne_tail _ _ _ rfl (pipeJoin_ne_tail _ _ _ rfl (pipeJoin_ne_head _ _ _ h))

/-- Changing only `action` changes the digest input. -/
theorem hash_data_ne_action (r : AuditLog) (v : String) (canonTs : String)
    (h : v ≠ r.action) :
    hash_data { r with action := v } canonTs ≠ hash_data r canonTs := by
  simp only [hash_data, auditComps]
  exact pipeJoin_ne_tail _ _ _ rfl (pipeJoin_ne_tail _ _ _ rfl (pipeJoin_ne_tail _ _ _ rfl (pipeJoin_ne_head _ _ _ h)))

/-- Changing only `resource_type` changes the digest input. -/
theorem hash_data_ne_resource_type (r : AuditLog) (v : String) (canonTs : String)
    (h : v ≠ r.resource_type) :
    hash_data { r with resource_type := v } canonTs ≠ hash_data r canonTs := by
  simp only [hash_data, auditComps]
  exact pipeJoin_ne_tail _ _ _ rfl (pipeJoin_ne_tail _ _ _ rfl (pipeJoin_ne_tail _ _ _ rfl (pipeJoin_ne_tail _ _ _ rfl (pipeJoin_ne_head _ _ _ h))))

/-- Changing only `resource_id`, in a way visible to `unwrap_or("")`,
changes the digest input. -/
theorem hash_data_ne_resource_id (r : AuditLog) (v : Option String) (canonTs : String)
    (h : orEmpty v ≠ orEmpty r.resource_id) :
    hash_data { r with resource_id := v } canonTs ≠ hash_data r canonTs := by
  simp only [hash_data, auditComps]
  exact pipeJoin_ne_tail _ _ _ rfl (pipeJoin_ne_tail _ _ _ rfl (pipeJoin_ne_tail _ _ _ rfl (pipeJoin_ne_tail _ _ _ rfl (pipeJoin_ne_tail _ _ _ rfl (pipeJoin_ne_head _ _ _ h)))))

/-- Changing only `resource_name`, in a way visible to `unwrap_or("")`,
changes the digest input. -/
theorem hash_data_ne_resource_name (r : AuditLog) (v : Option String) (canonTs : String)
    (h : orEmpty v ≠ orEmpty r.resource_name) :
    hash_data { r with resource_name := v } canonTs ≠ hash_data r canonTs := by
  simp only [hash_data, auditComps]
  exact pipeJoin_ne_tail _ _ _ rfl (pipeJoin_ne_tail _ _ _ rfl (pipeJoin_ne_tail _ _ _ rfl (pipeJoin_ne_tail _ _ _ rfl (pipeJoin_ne_tail _ _ _ rfl (pipeJoin_ne_tail _ _ _ rfl (pipeJoin_ne_head _ _ _ h))))))

/-- Changing only `ip_address`, in a way visible to `unwrap_or("")`,
changes the digest input. -/
theorem hash_data_ne_ip_address (r : AuditLog) (v : Option String) (canonTs : String)
    (h : orEmpty v ≠ orEmpty r.ip_address) :
    hash_data { r with ip_address := v } canonTs ≠ hash_data r canonTs := by
  simp only [hash_data, auditComps]
  exact pipeJoin_ne_tail _ _ _ rfl (pipeJoin_ne_tail _ _ _ rfl (pipeJoin_ne_tail _ _ _ rfl (pipeJoin_ne_tail _ _ _ rfl (pipeJoin_ne_tail _ _ _ rfl (pipeJoin_ne_tail _ _ _ rfl (pipeJoin_ne_tail _ _ _ rfl (pipeJoin_ne_head _ _ _ h)))))))

/-- Changing only `file_hash`, in a way visible to `unwrap_or("")`,
changes the digest input. -/
theorem hash_data_ne_file_hash (r : AuditLog) (v : Option String) (canonTs : String)
    (h : orEmpty v ≠ orEmpty r.file_hash) :
    hash_data { r with file_hash := v } canonTs ≠ hash_data r canonTs := by
  simp only [hash_data, auditComps]
  exact pipeJoin_ne_tail _ _ _ rfl (pipeJoin_ne_tail _ _ _ rfl (pipeJoin_ne_tail _ _ _ rfl (pipeJoin_ne_tail _ _ _ rfl (pipeJoin_ne_tail _ _ _ rfl (pipeJoin_ne_tail _ _ _ rfl (pipeJoin_ne_tail _ _ _ rfl (pipeJoin_ne_tail _ _ _ rfl (pipeJoin_ne_head _ _ _ h))))))))

/-- Changing only `previous_hash` changes the digest input. -/
theorem hash_data_ne_previous_hash (r : AuditLog) (v : String) (canonTs : String)
    (h : v ≠ r.previous_hash) :
    hash_data { r with previous_hash := v } canonTs ≠ hash_data r canonTs := by
  simp only [hash_data, auditComps]
  exact pipeJoin_ne_tail _ _ _ rfl (pipeJoin_ne_tail _ _ _ rfl (pipeJoin_ne_tail _ _ _ rfl (pipeJoin_ne_tail _ _ _ rfl (pipeJoin_ne_tail _ _ _ rfl (pipeJoin_ne_tail _ _ _ rfl (pipeJoin_ne_tail _ _ _ rfl (pipeJoin_ne_tail _ _ _ rfl (pipeJoin_ne_tail _ _ _ rfl (pipeJoin_ne_head _ _ _ h)))))))))

/-- Changing only `metadata` changes the digest input. -/
theorem hash_data_ne_metadata (r : AuditLog) (v : String) (canonTs : String)
    (h : v ≠ r.metadata) :
    hash_data { r with metadata := v } canonTs ≠ hash_data r canonTs := by
  simp only [hash_data, auditComps]
  exact pipeJoin_ne_tail _ _ _ rfl (pipeJoin_ne_tail _ _ _ rfl (pipeJoin_ne_tail _ _ _ rfl (pipeJoin_ne_tail _ _ _ rfl (pipeJoin_ne_tail _ _ _ rfl (pipeJoin_ne_tail _ _ _ rfl (pipeJoin_ne_tail _ _ _ rfl (pipeJoin_ne_tail _ _ _ rfl (pipeJoin_ne_tail _ _ _ rfl (pipeJoin_ne_tail _ _ _ rfl (pipeJoin_ne_head _ _ _ h))))))))))

/-- Two digest inputs over the same row but different canonical timestamp
re-serializations differ. -/
theorem hash_data_ne_canonTs (r : AuditLog) (c c' : String) (h : c' ≠ c) :
    hash_data r c' ≠ hash_data r c := by
  simp only [hash_data, auditComps]
  exact pipeJoin_ne_tail _ _ _ rfl (pipeJoin_ne_tail _ _ _ rfl (pipeJoin_ne_tail _ _ _ rfl (pipeJoin_ne_tail _ _ _ rfl (pipeJoin_ne_tail _ _ _ rfl (pipeJoin_ne_tail _ _ _ rfl (pipeJoin_ne_tail _ _ _ rfl (pipeJoin_ne_tail _ _ _ rfl (pipeJoin_ne_tail _ _ _ rfl (pipeJoin_ne_tail _ _ _ rfl (pipeJoin_ne_tail _ _ _ rfl (pipeJoin_ne_head _ _ _ h)))))))))))

/-- Changing only the stored `is_success` integer, in a way visible to the
`value ≠ 0` materialization, changes the digest input. -/
theorem hash_data_ne_is_success (r : AuditLog) (v : Int) (canonTs : String)
    (h : sqlBool v ≠ sqlBool r.is_success) :
    hash_data { r with is_success := v } canonTs ≠ hash_data r canonTs := by
  simp only [hash_data, auditComps]
  exact pipeJoin_ne_tail _ _ _ rfl (pipeJoin_ne_tail _ _ _ rfl (pipeJoin_ne_tail _ _ _ rfl (pipeJoin_ne_tail _ _ _ rfl (pipeJoin_ne_tail _ _ _ rfl (pipeJoin_ne_tail _ _ _ rfl (pipeJoin_ne_tail _ _ _ rfl (pipeJoin_ne_tail _ _ _ rfl (pipeJoin_ne_tail _ _ _ rfl (pipeJoin_ne_tail _ _ _ rfl (pipeJoin_ne_tail _ _ _ rfl (pipeJoin_ne_tail _ _ _ rfl (pipeJoin_ne_head _ _ _ (fun hb => h (boolStr_inj hb))))))))))))))

/-- The boolean verifier is the pointwise `isNone` of the reporting
verifier: the scan returns `Ok(true)` exactly when no offending row is
reported, and surfaces the same row-materialization errors. -/
theorem verifyFrom_eq_isNone (hash : String → String)
    (parseTs : String → Option String) :
    ∀ (l : List AuditLog) (prev : String) (k : Int),
      verifyFrom hash parseTs prev k l =
        (verifyReportFrom hash parseTs prev k l).map Option.isNone := by
  intro l
  induction l with
  | nil => intro prev k; simp [verifyFrom, verifyReportFrom]
  | cons a rest ih =>
    intro prev k
    cases hp : parseTs a.timestamp with
    | none => simp [verifyFrom, verifyReportFrom, hp]
    | some c =>
      by_cases h1 : a.sequence_id = k
      · by_cases h2 : a.previous_hash = prev
        · by_cases h3 : hash (hash_data a c) = a.current_hash
          · simpa [verifyFrom, verifyReportFrom, hp, h1, h2, h3] using
              ih a.current_hash (k + 1)
          · simp [verifyFrom, verifyReportFrom, hp, h1, h2, h3]
        · simp [verifyFrom, verifyReportFrom, hp, h1, h2]
      · simp [verifyFrom, verifyReportFrom, hp, h1]

/-- Row-wise facts extracted from an accepted scan: each row carries the
expected consecutive `sequence_id`, the link to its predecessor's
`current_hash` (the sentinel for the first row), a timestamp text that
parses, and a digest over the materialized row that recomputes to its
stored `current_hash`. -/
theorem verifyFrom_facts (hash : String → String)
    (parseTs : String → Option String) :
    ∀ (l : List AuditLog) (prev : String) (k : Int),
      verifyFrom hash parseTs prev k l = some true →
      ∀ i, i < l.length →
        (rowAt l i).sequence_id = k + i ∧
        (rowAt l i).previous_hash =
          (if i = 0 then prev else (rowAt l (i - 1)).current_hash) ∧
        ∃ c, parseTs (rowAt l i).timestamp = some c ∧
          hash (hash_data (rowAt l i) c) = (rowAt l i).current_hash := by
  intro l
  induction l with
  | nil => intro prev k _ i hi; simp at hi
  | cons a rest ih =>
    intro prev k hv i hi
    cases hp : parseTs a.timestamp with
    | none => simp [verifyFrom, hp] at hv
    | some c =>
      have h1 : a.sequence_id = k := by
        by_contra hc; simp [verifyFrom, hp, hc] at hv
      have h2 : a.previous_hash = prev := by
        by_contra hc; simp [verifyFrom, hp, h1, hc] at hv
      have h3 : hash (hash_data a c) = a.current_hash := by
        by_contra hc; simp [verifyFrom, hp, h1, h2, hc] at hv
      have h4 : verifyFrom hash parseTs a.current_hash (k + 1) rest =
          some true := by
        simpa [verifyFrom, hp, h1, h2, h3] using hv
      cases i with
      | zero => exact ⟨by simp [rowAt, h1], by simp [rowAt, h2],
          c, by simpa [rowAt] using hp, by simpa [rowAt] using h3⟩
      | succ j =>
        have hj : j < rest.length := by simpa using hi
        have hr := ih a.current_hash (k + 1) h4 j hj
        have hrow : rowAt (a :: rest) (j + 1) = rowAt rest j := by
          simp [rowAt]
        rcases hr with ⟨hs, hpv, hh⟩
        refine ⟨?_, ?_, ?_⟩
        · rw [hrow, hs]; push_cast; ring
        · rw [hrow]
          cases j with
          | zero => simpa [rowAt] using hpv
          | succ m =>
            have : rowAt (a :: rest) (m + 1) = rowAt rest m := by simp [rowAt]
            simpa [this] using hpv
        · rw [hrow]; exact hh

/-- Replacing the row at position `i` of an accepted chain by a row with
the same `sequence_id` and a parseable timestamp that fails the link
check or the digest check makes the scan report exactly that row's
`sequence_id`. -/
theorem verifyReportFrom_set (hash : String → String)
    (parseTs : String → Option String) :
    ∀ (l : List AuditLog) (prev : String) (k : Int) (i : Nat) (r' : AuditLog)
      (c' : String),
      verifyFrom hash parseTs prev k l = some true →
      i < l.length →
      r'.sequence_id = (rowAt l i).sequence_id →
      parseTs r'.timestamp = some c' →
      ¬(r'.previous_hash =
          (if i = 0 then prev else (rowAt l (i - 1)).current_hash) ∧
        hash (hash_data r' c') = r'.current_hash) →
      verifyReportFrom hash parseTs prev k (l.set i r') =
        some (some r'.sequence_id) := by
  intro l
  induction l with
  | nil => intro prev k i r' c' _ hi; simp at hi
  | cons a rest ih =>
    intro prev k i r' c' hv hi hseq hpar hbad
    cases hp : parseTs a.timestamp with
    | none => simp [verifyFrom, hp] at hv
    | some c =>
      have h1 : a.sequence_id = k := by
        by_contra hc; simp [verifyFrom, hp, hc] at hv
      have h2 : a.previous_hash = prev := by
        by_contra hc; simp [verifyFrom, hp, h1, hc] at hv
      have h3 : hash (hash_data a c) = a.current_hash := by
        by_contra hc; simp [verifyFrom, hp, h1, h2, hc] at hv
      have h4 : verifyFrom hash parseTs a.current_hash (k + 1) rest =
          some true := by
        simpa [verifyFrom, hp, h1, h2, h3] using hv
      cases i with
      | zero =>
        have hs : r'.sequence_id = k := by
          simpa [rowAt, h1] using hseq
        by_cases hpv : r'.previous_hash = prev
        · have hh : hash (hash_data r' c') ≠ r'.current_hash := by
            intro hc
            exact hbad ⟨by simpa using hpv, hc⟩
          simp [verifyReportFrom, hpar, hs, hpv, hh]
        · simp [verifyReportFrom, hpar, hs, hpv]
      | succ j =>
        have hj : j < rest.length := by simpa using hi
        have hrow : rowAt (a :: rest) (j + 1) = rowAt rest j := by simp [rowAt]
        have hseq' : r'.sequence_id = (rowAt rest j).sequence_id := by
          rw [← hrow]; exact hseq
        have hbad' : ¬(r'.previous_hash =
            (if j = 0 then a.current_hash
             else (rowAt rest (j - 1)).current_hash) ∧
            hash (hash_data r' c') = r'.current_hash) := by
          intro hc
          apply hbad
          cases j with
          | zero => simpa [rowAt] using hc
          | succ m =>
            have hmm : rowAt (a :: rest) (m + 1) = rowAt rest m := by
              simp [rowAt]
            simpa [hmm] using hc
        have := ih a.current_hash (k + 1) j r' c' h4 hj hseq' hpar hbad'
        simpa [verifyReportFrom, hp, h1, h2, h3] using this

/-- The `ORDER BY` comparison: ascending `sequence_id`. -/
def SeqLE (a b : AuditLog) : Prop := a.sequence_id ≤ b.sequence_id

/-- Inserting into the sorted read is a permutation of consing. -/
theorem insertBySeq_perm (r : AuditLog) :
    ∀ l : List AuditLog, (insertBySeq r l).Perm (r :: l) := by
  intro l
  induction l with
  | nil => simp [insertBySeq]
  | cons x xs ih =>
    simp only [insertBySeq]
    split
    · exact List.Perm.refl _
    · exact (ih.cons x).trans (List.Perm.swap r x xs)

/-- The sorted read is a permutation of the stored rows. -/
theorem sortBySeq_perm (l : List AuditLog) : (sortBySeq l).Perm l := by
  induction l with
  | nil => simp [sortBySeq]
  | cons a xs ih =>
    have : sortBySeq (a :: xs) = insertBySeq a (sortBySeq xs) := rfl
    rw [this]
    exact (insertBySeq_perm a (sortBySeq xs)).trans (ih.cons a)

/-- Sorting preserves length. -/
theorem sortBySeq_length (l : List AuditLog) :
    (sortBySeq l).length = l.length :=
  (sortBySeq_perm l).length_eq

/-- A list already ascending by `sequence_id` is left unchanged by the
sorted read. -/
theorem sortBySeq_eq_self :
    ∀ l : List AuditLog, List.Chain' SeqLE l → sortBySeq l = l := by
  intro l
  induction l with
  | nil => intro _; rfl
  | cons a xs ih =>
    intro hch
    rcases List.chain'_cons'.mp hch with ⟨hhd, htl⟩
    have h1 : sortBySeq (a :: xs) = insertBySeq a (sortBySeq xs) := rfl
    rw [h1, ih htl]
    cases xs with
    | nil => rfl
    | cons b bs =>
      have hab : a.sequence_id ≤ b.sequence_id := hhd b rfl
      simp [insertBySeq, hab]

/-- `rowAt` agrees with `get` inside the bounds. -/
theorem rowAt_eq_get (l : List AuditLog) (i : Nat) (h : i < l.length) :
    rowAt l i = l.get ⟨i, h⟩ := by
  simp [rowAt, List.getElem?_eq_getElem h]

/-- `rowAt` after `set` at the set position. -/
theorem rowAt_set_eq (l : List AuditLog) (i : Nat) (r' : AuditLog)
    (h : i < l.length) : rowAt (l.set i r') i = r' := by
  simp [rowAt, List.get?_eq_getElem?, List.getElem?_set_eq_of_lt r' h]

/-- `rowAt` after `set` away from the set position. -/
theorem rowAt_set_ne (l : List AuditLog) (i j : Nat) (r' : AuditLog)
    (h : j ≠ i) : rowAt (l.set i r') j = rowAt l j := by
  simp [rowAt, List.get?_eq_getElem?, List.getElem?_set_ne (Ne.symm h)]

/-- Rows whose `sequence_id`s are consecutive from some base are ascending. -/
theorem chain_of_consecutive (l : List AuditLog) (k : Int)
    (hf : ∀ i, i < l.length → (rowAt l i).sequence_id = k + i) :
    List.Chain' SeqLE l := by
  rw [List.chain'_iff_get]
  intro i hi
  have hi1 : i < l.length := by omega
  have hi2 : i + 1 < l.length := by omega
  have e1 := hf i hi1
  have e2 := hf (i + 1) hi2
  rw [rowAt_eq_get l i hi1] at e1
  rw [rowAt_eq_get l (i + 1) hi2] at e2
  show (l.get ⟨i, _⟩).sequence_id ≤ (l.get ⟨i + 1, _⟩).sequence_id
  rw [e1, e2]
  push_cast
  omega

/-- The integer interval `[k, k+n)` as a list, for reasoning about the
multiset of `sequence_id`s. -/
def intRange (k : Int) : Nat → List Int
  | 0 => []
  | n + 1 => k :: intRange (k + 1) n

/-- Length of `intRange`. -/
theorem intRange_length : ∀ (n : Nat) (k : Int), (intRange k n).length = n := by
  intro n
  induction n with
  | zero => intro k; rfl
  | succ m ih => intro k; simp [intRange, ih]

/-- Values of `intRange`. -/
theorem intRange_get :
    ∀ (n : Nat) (k : Int) (i : Nat) (h : i < (intRange k n).length),
      (intRange k n).get ⟨i, h⟩ = k + i := by
  intro n
  induction n with
  | zero => intro k i h; simp [intRange] at h
  | succ m ih =>
    intro k i h
    cases i with
    | zero => simp [intRange]
    | succ j =>
      have hj : j < (intRange (k + 1) m).length := by
        simpa [intRange] using h
      have := ih (k + 1) j hj
      simp only [intRange, List.get_cons_succ]
      rw [this]
      push_cast
      ring

/-- Occurrence count in `intRange`: each value of the interval occurs
exactly once. -/
theorem intRange_count :
    ∀ (n : Nat) (k v : Int),
      (intRange k n).count v = if k ≤ v ∧ v < k + n then 1 else 0 := by
  intro n
  induction n with
  | zero =>
    intro k v
    simp only [intRange, List.count_nil]
    push_cast
    split_ifs with h
    · omega
    · rfl
  | succ m ih =>
    intro k v
    simp only [intRange, List.count_cons, beq_iff_eq, ih (k + 1) v]
    push_cast
    split_ifs <;> omega

/-- Overwriting the only occurrence of `x` with a different value removes
every occurrence of `x`. -/
theorem count_set_eq_zero (x w : Int) :
    ∀ (l : List Int) (i : Nat), i < l.length →
      w ≠ x → l.count x = 1 → (∀ h : i < l.length, l[i] = x) →
      (l.set i w).count x = 0 := by
  intro l
  induction l with
  | nil => intro i hi; simp at hi
  | cons b l' ih =>
    intro i hi hw hcnt hget
    cases i with
    | zero =>
      have hb : b = x := hget hi
      have hl' : l'.count x = 0 := by
        have := hcnt
        simp [List.count_cons, hb] at this
        omega
      simp [List.set, List.count_cons, hl', hw]
    | succ j =>
      have hj : j < l'.length := by simpa using hi
      have hjx : ∀ h : j < l'.length, l'[j] = x := by
        intro h
        have := hget hi
        simpa using this
      have hmem : x ∈ l' := by
        have := hjx hj
        rw [← this]
        exact List.getElem_mem hj
      have hpos : 1 ≤ l'.count x := List.one_le_count_iff.mpr hmem
      have hb : b ≠ x := by
        intro hbx
        simp [List.count_cons, hbx] at hcnt
        omega
      have hl' : l'.count x = 1 := by
        simp [List.count_cons, hb] at hcnt
        omega
      have := ih j hj hw hl' hjx
      simp [List.set, List.count_cons, this, hb]

/-- The `sequence_id`s of a chain with consecutive numbering form the
integer interval. -/
theorem map_seq_eq_intRange (l : List AuditLog) (k : Int)
    (hf : ∀ i, i < l.length → (rowAt l i).sequence_id = k + i) :
    l.map (·.sequence_id) = intRange k l.length := by
  apply List.ext_get
  · simp [intRange_length]
  · intro n h1 h2
    have hn : n < l.length := by simpa using h1
    have e1 : (l.map (·.sequence_id)).get ⟨n, h1⟩ = (l.get ⟨n, hn⟩).sequence_id := by
      simp [List.getElem_map]
    rw [e1, ← rowAt_eq_get l n hn, intRange_get, hf n hn]

/-- A scan over rows whose timestamp texts all parse never surfaces a
row-materialization error. -/
theorem verifyFrom_isSome (hash : String → String)
    (parseTs : String → Option String) :
    ∀ (l : List AuditLog) (prev : String) (k : Int),
      (∀ row ∈ l, (parseTs row.timestamp).isSome) →
      verifyFrom hash parseTs prev k l ≠ none := by
  intro l
  induction l with
  | nil => intro prev k _; simp [verifyFrom]
  | cons a rest ih =>
    intro prev k hall
    have hpa := hall a (by simp)
    cases hp : parseTs a.timestamp with
    | none => rw [hp] at hpa; simp at hpa
    | some c =>
      by_cases h1 : a.sequence_id = k
      · by_cases h2 : a.previous_hash = prev
        · by_cases h3 : hash (hash_data a c) = a.current_hash
          · simpa [verifyFrom, hp, h1, h2, h3] using
              ih a.current_hash (k + 1) (fun row hr => hall row (by simp [hr]))
          · simp [verifyFrom, hp, h1, h2, h3]
        · simp [verifyFrom, hp, h1, h2]
      · simp [verifyFrom, hp, h1]

/-- Overwriting the `sequence_id` of any row of an accepted chain with a
different value (its timestamp still parseable) makes the scan of the
re-sorted table return `Ok(false)`: the multiset of sequence numbers no
longer is `{1, …, n}`. -/
theorem verify_set_seq_false (hash : String → String)
    (parseTs : String → Option String) (t : List AuditLog)
    (ht : verifyFrom hash parseTs sentinelHash 1 t = some true)
    (i : Nat) (hi : i < t.length) (r' : AuditLog)
    (hne : r'.sequence_id ≠ (rowAt t i).sequence_id)
    (hpar : (parseTs r'.timestamp).isSome) :
    verifyFrom hash parseTs sentinelHash 1 (sortBySeq (t.set i r')) =
      some false := by
  have hfacts := verifyFrom_facts hash parseTs t sentinelHash 1 ht
  have hnot_true : verifyFrom hash parseTs sentinelHash 1
      (sortBySeq (t.set i r')) ≠ some true := by
    intro htrue
    have hlen : (sortBySeq (t.set i r')).length = t.length := by
      rw [sortBySeq_length, List.length_set]
    have hfacts' := verifyFrom_facts hash parseTs (sortBySeq (t.set i r'))
      sentinelHash 1 htrue
    have hmap' : (sortBySeq (t.set i r')).map (·.sequence_id) =
        intRange 1 t.length := by
      rw [← hlen]
      exact map_seq_eq_intRange _ 1 (fun j hj => (hfacts' j hj).1)
    have hmap : t.map (·.sequence_id) = intRange 1 t.length :=
      map_seq_eq_intRange t 1 (fun j hj => (hfacts j hj).1)
    have hperm : ((sortBySeq (t.set i r')).map (·.sequence_id)).Perm
        ((t.set i r').map (·.sequence_id)) :=
      (sortBySeq_perm (t.set i r')).map _
    have hset : (t.set i r').map (·.sequence_id) =
        (t.map (·.sequence_id)).set i r'.sequence_id := List.map_set
    have hseq_old : (rowAt t i).sequence_id = 1 + i := (hfacts i hi).1
    have hilen : i < (intRange 1 t.length).length := by
      rw [intRange_length]; exact hi
    have hgeti : ∀ h : i < (intRange 1 t.length).length,
        (intRange 1 t.length)[i] = 1 + (i : Int) := by
      intro h
      simpa [List.get_eq_getElem] using intRange_get t.length 1 i h
    have hcount1 : (intRange 1 t.length).count (1 + (i : Int)) = 1 := by
      rw [intRange_count]
      have : (1 : Int) ≤ 1 + i ∧ (1 : Int) + i < 1 + t.length := by
        constructor
        · omega
        · omega
      simp [this]
    have hcount0 : ((intRange 1 t.length).set i r'.sequence_id).count
        (1 + (i : Int)) = 0 := by
      apply count_set_eq_zero _ _ _ _ hilen _ hcount1 hgeti
      rw [← hseq_old]
      exact hne
    have hc1 : ((sortBySeq (t.set i r')).map (·.sequence_id)).count
        (1 + (i : Int)) = 1 := by rw [hmap']; exact hcount1
    have hc0 : ((t.set i r').map (·.sequence_id)).count (1 + (i : Int)) =
        0 := by
      rw [hset, hmap]; exact hcount0
    have := hperm.count_eq (1 + (i : Int))
    rw [hc1, hc0] at this
    exact absurd this (by decide)
  have hnot_none : verifyFrom hash parseTs sentinelHash 1
      (sortBySeq (t.set i r')) ≠ none := by
    apply verifyFrom_isSome
    intro row hrow
    have hrow' : row ∈ t.set i r' :=
      ((sortBySeq_perm (t.set i r')).mem_iff).mp hrow
    rcases List.mem_or_eq_of_mem_set hrow' with hin | heq
    · obtain ⟨⟨j, hj⟩, hget⟩ := List.mem_iff_get.mp hin
      obtain ⟨c, hc, -⟩ := (hfacts j hj).2.2
      rw [rowAt_eq_get t j hj, hget] at hc
      simp [hc]
    · subst heq
      exact hpar
  cases hres : verifyFrom hash parseTs sentinelHash 1
      (sortBySeq (t.set i r')) with
  | none => exact absurd hres hnot_none
  | some b =>
    cases b with
    | true => exact absurd hres hnot_true
    | false => rfl

/-- A single-field mutation of a persisted audit row that is visible to
the verifier: every column except `user_agent` may be overwritten, where
for the four optional serialized columns the change must be visible to
`unwrap_or("")` (NULL and the empty string serialize identically), for
`timestamp` the new text must parse and re-serialize to a different
canonical RFC-3339 form (equal-instant re-encodings are invisible, and an
unparseable text makes the scan error instead of failing), and for the
stored `is_success` integer the change must flip its `value ≠ 0`
materialization (e.g. 1→2 is invisible). -/
def MutDet (parseTs : String → Option String) (r r' : AuditLog) : Prop :=
  (r' = { r with sequence_id := r'.sequence_id } ∧ r'.sequence_id ≠ r.sequence_id)
  ∨ (r' = { r with id := r'.id } ∧ r'.id ≠ r.id)
  ∨ (r' = { r with user_id := r'.user_id } ∧ r'.user_id ≠ r.user_id)
  ∨ (r' = { r with username := r'.username } ∧ r'.username ≠ r.username)
  ∨ (r' = { r with action := r'.action } ∧ r'.action ≠ r.action)
  ∨ (r' = { r with resource_type := r'.resource_type } ∧
      r'.resource_type ≠ r.resource_type)
  ∨ (r' = { r with resource_id := r'.resource_id } ∧
      orEmpty r'.resource_id ≠ orEmpty r.resource_id)
  ∨ (r' = { r with resource_name := r'.resource_name } ∧
      orEmpty r'.resource_name ≠ orEmpty r.resource_name)
  ∨ (r' = { r with ip_address := r'.ip_address } ∧
      orEmpty r'.ip_address ≠ orEmpty r.ip_address)
  ∨ (r' = { r with file_hash := r'.file_hash } ∧
      orEmpty r'.file_hash ≠ orEmpty r.file_hash)
  ∨ (r' = { r with previous_hash := r'.previous_hash } ∧
      r'.previous_hash ≠ r.previous_hash)
  ∨ (r' = { r with current_hash := r'.current_hash } ∧
      r'.current_hash ≠ r.current_hash)
  ∨ (r' = { r with metadata := r'.metadata } ∧ r'.metadata ≠ r.metadata)
  ∨ (r' = { r with timestamp := r'.timestamp } ∧
      (parseTs r'.timestamp).isSome ∧
      parseTs r'.timestamp ≠ parseTs r.timestamp)
  ∨ (r' = { r with is_success := r'.is_success } ∧
      sqlBool r'.is_success ≠ sqlBool r.is_success)

/-- If the replacement row keeps its `sequence_id` and a parseable
timestamp but fails the link check or the digest check, the whole
verification returns `Ok(false)` and reports that row's `sequence_id`. -/
theorem detected_aux (hash : String → String)
    (parseTs : String → Option String) (t : List AuditLog)
    (ht : verifyFrom hash parseTs sentinelHash 1 t = some true) (i : Nat)
    (hi : i < t.length) (r' : AuditLog) (c' : String)
    (hseq : r'.sequence_id = (rowAt t i).sequence_id)
    (hpar : parseTs r'.timestamp = some c')
    (hbad : ¬(r'.previous_hash =
        (if i = 0 then sentinelHash else (rowAt t (i - 1)).current_hash) ∧
      hash (hash_data r' c') = r'.current_hash)) :
    verify_audit_chain hash parseTs (t.set i r') = some false ∧
    verifyReport hash parseTs (t.set i r') = some (some r'.sequence_id) := by
  have hfacts := verifyFrom_facts hash parseTs t sentinelHash 1 ht
  have hlen : (t.set i r').length = t.length := List.length_set t i r'
  have hf' : ∀ j, j < (t.set i r').length →
      (rowAt (t.set i r') j).sequence_id = 1 + j := by
    intro j hj
    rw [hlen] at hj
    by_cases hji : j = i
    · subst hji
      rw [rowAt_set_eq t j r' hj, hseq]
      exact (hfacts j hj).1
    · rw [rowAt_set_ne t i j r' hji]
      exact (hfacts j hj).1
  have hchain' : List.Chain' SeqLE (t.set i r') :=
    chain_of_consecutive _ 1 hf'
  have hsort' : sortBySeq (t.set i r') = t.set i r' :=
    sortBySeq_eq_self _ hchain'
  have hrep : verifyReportFrom hash parseTs sentinelHash 1 (t.set i r') =
      some (some r'.sequence_id) :=
    verifyReportFrom_set hash parseTs t sentinelHash 1 i r' c' ht hi hseq
      hpar hbad
  constructor
  · show verifyFrom hash parseTs sentinelHash 1 (sortBySeq (t.set i r')) =
      some false
    rw [hsort', verifyFrom_eq_isNone, hrep]
    rfl
  · show verifyReportFrom hash parseTs sentinelHash 1
      (sortBySeq (t.set i r')) = some (some r'.sequence_id)
    rw [hsort']
    exact hrep

/-- C1 (corrected): mutating a single column of one persisted row of an
accepted, ascending audit table is detected — `verify_audit_chain`
returns `Ok(false)` — whenever the mutation is visible to the verifier
(`MutDet`): every column except `user_agent`, with optional columns
compared after `unwrap_or("")`, the timestamp compared after RFC-3339
canonicalization, and the stored `is_success` integer compared by its
`value ≠ 0` materialization. When the mutated row keeps its
`sequence_id`, the verifier moreover reports exactly that
`sequence_id`. -/
theorem audit_tamper_detected (hash : String → String)
    (hinj : ∀ a b, hash a = hash b → a = b)
    (parseTs : String → Option String) (t : List AuditLog)
    (hsorted : List.Chain' SeqLE t)
    (ht : verify_audit_chain hash parseTs t = some true)
    (i : Nat) (hi : i < t.length) (r' : AuditLog)
    (hmut : MutDet parseTs (rowAt t i) r') :
    verify_audit_chain hash parseTs (t.set i r') = some false ∧
    (r'.sequence_id = (rowAt t i).sequence_id →
      verifyReport hash parseTs (t.set i r') = some (some r'.sequence_id)) := by
  have hsort : sortBySeq t = t := sortBySeq_eq_self t hsorted
  have ht' : verifyFrom hash parseTs sentinelHash 1 t = some true := by
    have h0 : verifyFrom hash parseTs sentinelHash 1 (sortBySeq t) =
        some true := ht
    rwa [hsort] at h0
  obtain ⟨hseqi, hprevi, c, hpc, hhc⟩ :=
    verifyFrom_facts hash parseTs t sentinelHash 1 ht' i hi
  have hclose : ∀ c', r'.sequence_id = (rowAt t i).sequence_id →
      parseTs r'.timestamp = some c' →
      ¬(r'.previous_hash =
          (if i = 0 then sentinelHash else (rowAt t (i - 1)).current_hash) ∧
        hash (hash_data r' c') = r'.current_hash) →
      verify_audit_chain hash parseTs (t.set i r') = some false ∧
      (r'.sequence_id = (rowAt t i).sequence_id →
        verifyReport hash parseTs (t.set i r') =
          some (some r'.sequence_id)) := by
    intro c' hseq hpar hbad
    have h := detected_aux hash parseTs t ht' i hi r' c' hseq hpar hbad
    exact ⟨h.1, fun _ => h.2⟩
  rcases hmut with hm | hm | hm | hm | hm | hm | hm | hm | hm | hm | hm | hm
    | hm | hm | hm
  · obtain ⟨heq, hne⟩ := hm
    have hts : r'.timestamp = (rowAt t i).timestamp := by rw [heq]
    have hpar : (parseTs r'.timestamp).isSome = true := by rw [hts, hpc]; rfl
    refine ⟨verify_set_seq_false hash parseTs t ht' i hi r' hne hpar, ?_⟩
    intro hseq
    exact absurd hseq hne
  · obtain ⟨heq, hne⟩ := hm
    have hts : r'.timestamp = (rowAt t i).timestamp := by rw [heq]
    have hcur : r'.current_hash = (rowAt t i).current_hash := by rw [heq]
    refine hclose c (by rw [heq]) (by rw [hts]; exact hpc) ?_
    rintro ⟨-, hdig⟩
    have hne' : hash_data r' c ≠ hash_data (rowAt t i) c := by
      rw [heq]; exact hash_data_ne_id _ _ _ hne
    exact hne' (hinj _ _ (by rw [hdig, hcur, ← hhc]))
  · obtain ⟨heq, hne⟩ := hm
    have hts : r'.timestamp = (rowAt t i).timestamp := by rw [heq]
    have hcur : r'.current_hash = (rowAt t i).current_hash := by rw [heq]
    refine hclose c (by rw [heq]) (by rw [hts]; exact hpc) ?_
    rintro ⟨-, hdig⟩
    have hne' : hash_data r' c ≠ hash_data (rowAt t i) c := by
      rw [heq]; exact hash_data_ne_user_id _ _ _ hne
    exact hne' (hinj _ _ (by rw [hdig, hcur, ← hhc]))
  · obtain ⟨heq, hne⟩ := hm
    have hts : r'.timestamp = (rowAt t i).timestamp := by rw [heq]
    have hcur : r'.current_hash = (rowAt t i).current_hash := by rw [heq]
    refine hclose c (by rw [heq]) (by rw [hts]; exact hpc) ?_
    rintro ⟨-, hdig⟩
    have hne' : hash_data r' c ≠ hash_data (rowAt t i) c := by
      rw [heq]; exact hash_data_ne_username _ _ _ hne
    exact hne' (hinj _ _ (by rw [hdig, hcur, ← hhc]))
  · obtain ⟨heq, hne⟩ := hm
    have hts : r'.timestamp = (rowAt t i).timestamp := by rw [heq]
    have hcur : r'.current_hash = (rowAt t i).current_hash := by rw [heq]
    refine hclose c (by rw [heq]) (by rw [hts]; exact hpc) ?_
    rintro ⟨-, hdig⟩
    have hne' : hash_data r' c ≠ hash_data (rowAt t i) c := by
      rw [heq]; exact hash_data_ne_action _ _ _ hne
    exact hne' (hinj _ _ (by rw [hdig, hcur, ← hhc]))
  · obtain ⟨heq, hne⟩ := hm
    have hts : r'.timestamp = (rowAt t i).timestamp := by rw [heq]
    have hcur : r'.current_hash = (rowAt t i).current_hash := by rw [heq]
    refine hclose c (by rw [heq]) (by rw [hts]; exact hpc) ?_
    rintro ⟨-, hdig⟩
    have hne' : hash_data r' c ≠ hash_data (rowAt t i) c := by
      rw [heq]; exact hash_data_ne_resource_type _ _ _ hne
    exact hne' (hinj _ _ (by rw [hdig, hcur, ← hhc]))
  · obtain ⟨heq, hne⟩ := hm
    have hts : r'.timestamp = (rowAt t i).timestamp := by rw [heq]
    have hcur : r'.current_hash = (rowAt t i).current_hash := by rw [heq]
    refine hclose c (by rw [heq]) (by rw [hts]; exact hpc) ?_
    rintro ⟨-, hdig⟩
    have hne' : hash_data r' c ≠ hash_data (rowAt t i) c := by
      rw [heq]; exact hash_data_ne_resource_id _ _ _ hne
    exact hne' (hinj _ _ (by rw [hdig, hcur, ← hhc]))
  · obtain ⟨heq, hne⟩ := hm
    have hts : r'.timestamp = (rowAt t i).timestamp := by rw [heq]
    have hcur : r'.current_hash = (rowAt t i).current_hash := by rw [heq]
    refine hclose c (by rw [heq]) (by rw [hts]; exact hpc) ?_
    rintro ⟨-, hdig⟩
    have hne' : hash_data r' c ≠ hash_data (rowAt t i) c := by
      rw [heq]; exact hash_data_ne_resource_name _ _ _ hne
    exact hne' (hinj _ _ (by rw [hdig, hcur, ← hhc]))
  · obtain ⟨heq, hne⟩ := hm
    have hts : r'.timestamp = (rowAt t i).timestamp := by rw [heq]
    have hcur : r'.current_hash = (rowAt t i).current_hash := by rw [heq]
    refine hclose c (by rw [heq]) (by rw [hts]; exact hpc) ?_
    rintro ⟨-, hdig⟩
    have hne' : hash_data r' c ≠ hash_data (rowAt t i) c := by
      rw [heq]; exact hash_data_ne_ip_address _ _ _ hne
    exact hne' (hinj _ _ (by rw [hdig, hcur, ← hhc]))
  · obtain ⟨heq, hne⟩ := hm
    have hts : r'.timestamp = (rowAt t i).timestamp := by rw [heq]
    have hcur : r'.current_hash = (rowAt t i).current_hash := by rw [heq]
    refine hclose c (by rw [heq]) (by rw [hts]; exact hpc) ?_
    rintro ⟨-, hdig⟩
    have hne' : hash_data r' c ≠ hash_data (rowAt t i) c := by
      rw [heq]; exact hash_data_ne_file_hash _ _ _ hne
    exact hne' (hinj _ _ (by rw [hdig, hcur, ← hhc]))
  · obtain ⟨heq, hne⟩ := hm
    have hts : r'.timestamp = (rowAt t i).timestamp := by rw [heq]
    refine hclose c (by rw [heq]) (by rw [hts]; exact hpc) ?_
    rintro ⟨hlink, -⟩
    exact hne (by rw [hlink, ← hprevi])
  · obtain ⟨heq, hne⟩ := hm
    have hts : r'.timestamp = (rowAt t i).timestamp := by rw [heq]
    have hdata : hash_data r' c = hash_data (rowAt t i) c := by rw [heq]; rfl
    refine hclose c (by rw [heq]) (by rw [hts]; exact hpc) ?_
    rintro ⟨-, hdig⟩
    rw [hdata, hhc] at hdig
    exact hne hdig.symm
  · obtain ⟨heq, hne⟩ := hm
    have hts : r'.timestamp = (rowAt t i).timestamp := by rw [heq]
    have hcur : r'.current_hash = (rowAt t i).current_hash := by rw [heq]
    refine hclose c (by rw [heq]) (by rw [hts]; exact hpc) ?_
    rintro ⟨-, hdig⟩
    have hne' : hash_data r' c ≠ hash_data (rowAt t i) c := by
      rw [heq]; exact hash_data_ne_metadata _ _ _ hne
    exact hne' (hinj _ _ (by rw [hdig, hcur, ← hhc]))
  · obtain ⟨heq, hparS, hnep⟩ := hm
    obtain ⟨c', hpc'⟩ := Option.isSome_iff_exists.mp hparS
    have hcc : c' ≠ c := fun h => hnep (by rw [hpc', hpc, h])
    have hcur : r'.current_hash = (rowAt t i).current_hash := by rw [heq]
    have hdata : hash_data r' c' = hash_data (rowAt t i) c' := by
      rw [heq]; rfl
    refine hclose c' (by rw [heq]) hpc' ?_
    rintro ⟨-, hdig⟩
    have hEqH : hash (hash_data (rowAt t i) c') =
        hash (hash_data (rowAt t i) c) := by
      rw [← hdata, hdig, hcur, ← hhc]
    exact hash_data_ne_canonTs (rowAt t i) c c' hcc (hinj _ _ hEqH)
  · obtain ⟨heq, hne⟩ := hm
    have hts : r'.timestamp = (rowAt t i).timestamp := by rw [heq]
    have hcur : r'.current_hash = (rowAt t i).current_hash := by rw [heq]
    refine hclose c (by rw [heq]) (by rw [hts]; exact hpc) ?_
    rintro ⟨-, hdig⟩
    have hne' : hash_data r' c ≠ hash_data (rowAt t i) c := by
      rw [heq]; exact hash_data_ne_is_success _ _ _ hne
    exact hne' (hinj _ _ (by rw [hdig, hcur, ← hhc]))

/-- Concrete instance of the tamper-detection theorem: overwriting the
`action` of the single row of an accepted one-row chain is rejected and
reported. -/
theorem audit_tamper_detected_witness :
    verify_audit_chain (fun s => s) cexParse
        ([cexRow].set 0 { cexRow with action := "UPLOAD" }) = some false ∧
    verifyReport (fun s => s) cexParse
        ([cexRow].set 0 { cexRow with action := "UPLOAD" }) =
      some (some cexRow.sequence_id) := by
  have h := audit_tamper_detected (fun s => s) (fun a b hx => hx) cexParse
    [cexRow] (by simp) (by decide) 0 (by decide)
    { cexRow with action := "UPLOAD" }
    (Or.inr (Or.inr (Or.inr (Or.inr (Or.inl ⟨rfl, by decide⟩)))))
  exact ⟨h.1, h.2 rfl⟩

/-- Indexing past the head. -/
theorem rowAt_cons_succ (a : AuditLog) (rest : List AuditLog) (i : Nat) :
    rowAt (a :: rest) (i + 1) = rowAt rest i := by
  simp [rowAt]

/-- Indexing the head. -/
theorem rowAt_cons_zero (a : AuditLog) (rest : List AuditLog) :
    rowAt (a :: rest) 0 = a := rfl

/-- The three row-wise conditions of the verification scan, relative to a
given expected link `prev` and expected starting sequence `k`; a row whose
timestamp text does not parse fails the condition (the scan errors there
rather than reaching any check). -/
def condRelB (hash : String → String) (parseTs : String → Option String)
    (prev : String) (k : Int) (l : List AuditLog) (i : Nat) : Bool :=
  decide ((rowAt l i).sequence_id = k + i) &&
  decide ((rowAt l i).previous_hash =
    if i = 0 then prev else (rowAt l (i - 1)).current_hash) &&
  (match parseTs (rowAt l i).timestamp with
   | none => false
   | some c =>
     decide (hash (hash_data (rowAt l i) c) = (rowAt l i).current_hash))

/-- Specification-side row condition, written from the spec's words: at
position `i` of the ascending read, the row's `sequence_id` is the running
counter starting at 1, its `previous_hash` is the previous row's
`current_hash` (the all-zero sentinel for the first row), and the digest
recomputed over the materialized row (with its timestamp re-serialized to
canonical RFC-3339) equals its stored `current_hash`. -/
def chainCondB (hash : String → String) (parseTs : String → Option String)
    (l : List AuditLog) (i : Nat) : Bool :=
  condRelB hash parseTs sentinelHash 1 l i

/-- Specification-side: the first index violating the row condition. -/
def specFirstBad (hash : String → String) (parseTs : String → Option String)
    (l : List AuditLog) : Option Nat :=
  (List.range l.length).find? (fun i => ! chainCondB hash parseTs l i)

/-- Shifting the row condition across the head of the list. -/
theorem condRelB_shift (hash : String → String)
    (parseTs : String → Option String) (prev : String) (k : Int)
    (a : AuditLog) (rest : List AuditLog) (i : Nat) :
    condRelB hash parseTs prev k (a :: rest) (i + 1) =
      condRelB hash parseTs a.current_hash (k + 1) rest i := by
  unfold condRelB
  have e1 : decide ((rowAt (a :: rest) (i + 1)).sequence_id = k + (i + 1 : Nat)) =
      decide ((rowAt rest i).sequence_id = (k + 1) + i) := by
    rw [decide_eq_decide, rowAt_cons_succ]
    constructor <;> intro h <;> (push_cast at h ⊢; omega)
  have e2 : decide ((rowAt (a :: rest) (i + 1)).previous_hash =
      if i + 1 = 0 then prev else (rowAt (a :: rest) (i + 1 - 1)).current_hash) =
      decide ((rowAt rest i).previous_hash =
        if i = 0 then a.current_hash else (rowAt rest (i - 1)).current_hash) := by
    rw [decide_eq_decide, rowAt_cons_succ]
    cases i with
    | zero => simp [rowAt_cons_zero]
    | succ m => simp [rowAt_cons_succ]
  have e3 : (match parseTs (rowAt (a :: rest) (i + 1)).timestamp with
      | none => false
      | some c => decide (hash (hash_data (rowAt (a :: rest) (i + 1)) c) =
          (rowAt (a :: rest) (i + 1)).current_hash)) =
      (match parseTs (rowAt rest i).timestamp with
      | none => false
      | some c => decide (hash (hash_data (rowAt rest i) c) =
          (rowAt rest i).current_hash)) := by
    rw [rowAt_cons_succ]
  rw [e1, e2, e3]

/-- The reporting scan computes exactly the first index violating the
relative row condition, returning that row's `sequence_id` — unless that
row's timestamp text does not parse, in which case the scan surfaces the
row-materialization error. -/
theorem report_eq_findBad (hash : String → String)
    (parseTs : String → Option String) :
    ∀ (l : List AuditLog) (prev : String) (k : Int),
      verifyReportFrom hash parseTs prev k l =
        (match (List.range l.length).find?
            (fun i => ! condRelB hash parseTs prev k l i) with
         | none => some none
         | some i =>
           match parseTs (rowAt l i).timestamp with
           | none => none
           | some _ => some (some (rowAt l i).sequence_id)) := by
  intro l
  induction l with
  | nil => intro prev k; simp [verifyReportFrom]
  | cons a rest ih =>
    intro prev k
    by_cases hc0 : condRelB hash parseTs prev k (a :: rest) 0 = true
    · have hcond := hc0
      simp only [condRelB, rowAt_cons_zero, Bool.and_eq_true,
        decide_eq_true_eq] at hcond
      obtain ⟨⟨hs0, hp0⟩, hm0⟩ := hcond
      have h1 : a.sequence_id = k := by push_cast at hs0; omega
      have h2 : a.previous_hash = prev := by simpa using hp0
      obtain ⟨c, hp, h3⟩ : ∃ c, parseTs a.timestamp = some c ∧
          hash (hash_data a c) = a.current_hash := by
        cases hpp : parseTs a.timestamp with
        | none => rw [hpp] at hm0; simp at hm0
        | some c =>
          rw [hpp] at hm0
          exact ⟨c, rfl, by simpa using hm0⟩
      have hL : verifyReportFrom hash parseTs prev k (a :: rest) =
          verifyReportFrom hash parseTs a.current_hash (k + 1) rest := by
        simp [verifyReportFrom, hp, h1, h2, h3]
      rw [hL, ih a.current_hash (k + 1)]
      have hR : (List.range (a :: rest).length).find?
            (fun i => ! condRelB hash parseTs prev k (a :: rest) i) =
          ((List.range rest.length).find?
            (fun i => ! condRelB hash parseTs a.current_hash (k + 1) rest i)).map
              Nat.succ := by
        rw [List.length_cons, List.range_succ_eq_map]
        rw [List.find?_cons_of_neg _ (by simp [hc0])]
        rw [List.find?_map]
        have hfun : ((fun i => ! condRelB hash parseTs prev k (a :: rest) i) ∘
            Nat.succ) =
            (fun i => ! condRelB hash parseTs a.current_hash (k + 1) rest i) := by
          funext j
          simp [Function.comp, condRelB_shift]
        rw [hfun]
      rw [hR]
      cases (List.range rest.length).find?
          (fun i => ! condRelB hash parseTs a.current_hash (k + 1) rest i) with
      | none => rfl
      | some j => simp [rowAt_cons_succ]
    · have hR : (List.range (a :: rest).length).find?
            (fun i => ! condRelB hash parseTs prev k (a :: rest) i) = some 0 := by
        rw [List.length_cons, List.range_succ_eq_map]
        exact List.find?_cons_of_pos _ (by simp [hc0])
      rw [hR]
      cases hp : parseTs a.timestamp with
      | none => simp [verifyReportFrom, hp, rowAt_cons_zero]
      | some c =>
        have hnot : ¬(a.sequence_id = k ∧ a.previous_hash = prev ∧
            hash (hash_data a c) = a.current_hash) := by
          intro hcon
          apply hc0
          simp only [condRelB, rowAt_cons_zero, Bool.and_eq_true,
            decide_eq_true_eq]
          refine ⟨⟨?_, by simp [hcon.2.1]⟩, ?_⟩
          · push_cast
            omega
          · rw [hp]
            simpa using hcon.2.2
        by_cases h1 : a.sequence_id = k
        · by_cases h2 : a.previous_hash = prev
          · have h3 : hash (hash_data a c) ≠ a.current_hash := by
              intro hc; exact hnot ⟨h1, h2, hc⟩
            simp [verifyReportFrom, hp, h1, h2, h3, rowAt_cons_zero]
          · simp [verifyReportFrom, hp, h1, h2, rowAt_cons_zero]
        · simp [verifyReportFrom, hp, h1, rowAt_cons_zero]

/-- Claim C2: `verify_audit_chain` returns `Ok(true)` iff, scanning the
rows in ascending `sequence_id` order, every row satisfies (a) its
`sequence_id` is the running counter from 1, (b) its `previous_hash` is
the previous row's `current_hash` (the all-zero sentinel for the first
row), and (c) the digest recomputed over the materialized row equals its
stored `current_hash`; an empty table verifies (vacuously valid), and the
reported offending sequence is exactly the `sequence_id` of the first
violating row (an unparseable timestamp surfaces an error instead). -/
theorem verify_chain_scan_spec (hash : String → String)
    (parseTs : String → Option String) (table : List AuditLog) :
    (verify_audit_chain hash parseTs table = some true ↔
      ∀ i, i < (sortBySeq table).length →
        chainCondB hash parseTs (sortBySeq table) i = true) ∧
    verify_audit_chain hash parseTs [] = some true ∧
    verifyReport hash parseTs table =
      (match specFirstBad hash parseTs (sortBySeq table) with
       | none => some none
       | some i =>
         match parseTs (rowAt (sortBySeq table) i).timestamp with
         | none => none
         | some _ => some (some (rowAt (sortBySeq table) i).sequence_id)) := by
  have hrep : verifyReport hash parseTs table =
      (match specFirstBad hash parseTs (sortBySeq table) with
       | none => some none
       | some i =>
         match parseTs (rowAt (sortBySeq table) i).timestamp with
         | none => none
         | some _ => some (some (rowAt (sortBySeq table) i).sequence_id)) :=
    report_eq_findBad hash parseTs (sortBySeq table) sentinelHash 1
  have hbool : verify_audit_chain hash parseTs table =
      (verifyReport hash parseTs table).map Option.isNone :=
    verifyFrom_eq_isNone hash parseTs (sortBySeq table) sentinelHash 1
  refine ⟨?_, rfl, hrep⟩
  constructor
  · intro htrue i hlen
    rw [hbool] at htrue
    have hsome : verifyReport hash parseTs table = some none := by
      cases hv : verifyReport hash parseTs table with
      | none => rw [hv] at htrue; simp at htrue
      | some x =>
        cases x with
        | none => rfl
        | some s => rw [hv] at htrue; simp at htrue
    rw [hrep] at hsome
    have hfind : specFirstBad hash parseTs (sortBySeq table) = none := by
      cases hf : specFirstBad hash parseTs (sortBySeq table) with
      | none => rfl
      | some j =>
        rw [hf] at hsome
        cases hpj : parseTs (rowAt (sortBySeq table) j).timestamp with
        | none => simp [hpj] at hsome
        | some cc => simp [hpj] at hsome
    have hall := List.find?_eq_none.mp hfind i (List.mem_range.mpr hlen)
    revert hall
    cases chainCondB hash parseTs (sortBySeq table) i <;> simp
  · intro hall
    have hfind : specFirstBad hash parseTs (sortBySeq table) = none := by
      apply List.find?_eq_none.mpr
      intro i hmem
      have hi := hall i (List.mem_range.mp hmem)
      simp [hi]
    rw [hbool, hrep, hfind]
    rfl

/-- Indexing an appended table inside the old part. -/
theorem rowAt_append_left (t s : List AuditLog) (i : Nat) (h : i < t.length) :
    rowAt (t ++ s) i = rowAt t i := by
  simp [rowAt, List.get?_eq_getElem?, List.getElem?_append_left h]

/-- Indexing an appended table at the new last row. -/
theorem rowAt_append_last (t : List AuditLog) (r : AuditLog) :
    rowAt (t ++ [r]) t.length = r := by
  simp [rowAt, List.get?_eq_getElem?, List.getElem?_concat_length]

/-- One step of the max-`sequence_id` fold over an appended row. -/
theorem maxSeqRow_append_one (t : List AuditLog) (r : AuditLog) :
    maxSeqRow (t ++ [r]) =
      match maxSeqRow t with
      | none => some r
      | some m => if r.sequence_id ≤ m.sequence_id then some m else some r := by
  simp [maxSeqRow, List.foldl_append]

/-- Specification-side (from the spec's words): the first entry's
`previous_hash` is the all-zero sentinel, every later entry's
`previous_hash` equals the prior entry's `current_hash`, and the
`sequence_id`s are contiguous from 1. -/
def LinkedP (t : List AuditLog) : Prop :=
  ∀ i, i < t.length →
    (rowAt t i).sequence_id = 1 + (i : Int) ∧
    (rowAt t i).previous_hash =
      (if i = 0 then sentinelHash else (rowAt t (i - 1)).current_hash)

/-- Decidable form of `LinkedP`. -/
def chainLinked (t : List AuditLog) : Bool :=
  decide (∀ i, i < t.length →
    (rowAt t i).sequence_id = 1 + (i : Int) ∧
    (rowAt t i).previous_hash =
      (if i = 0 then sentinelHash else (rowAt t (i - 1)).current_hash))

/-- The inductive invariant maintained by `create_audit_log`: the chain is
linked, the next auto-assigned sequence is `length + 1`, and the last-hash
read returns the last row's `current_hash` (sentinel when empty). -/
def AuditInv (t : List AuditLog) : Prop :=
  LinkedP t ∧ nextSeq t = (t.length : Int) + 1 ∧
    lastAuditHash t =
      (if t.length = 0 then sentinelHash
       else (rowAt t (t.length - 1)).current_hash)

/-- The empty table satisfies the invariant. -/
theorem auditInv_nil : AuditInv [] := by
  refine ⟨fun i hi => by simp at hi, ?_, ?_⟩
  · simp [nextSeq, maxSeqRow]
  · simp [lastAuditHash, maxSeqRow]

/-- One successful `create_audit_log` call preserves the invariant. -/
theorem appendAudit_preserves (hash : String → String) (t : List AuditLog)
    (inp : AuditInput) (hInv : AuditInv t) : AuditInv (appendAudit hash t inp) := by
  obtain ⟨hL, hN, hLa⟩ := hInv
  unfold appendAudit
  set r := mkLog hash (lastAuditHash t) (nextSeq t) inp with hr
  have hrseq : r.sequence_id = (t.length : Int) + 1 := by
    rw [hr]
    show nextSeq t = (t.length : Int) + 1
    exact hN
  have hrprev : r.previous_hash = lastAuditHash t := rfl
  have hmax' : maxSeqRow (t ++ [r]) = some r := by
    rw [maxSeqRow_append_one]
    cases hm : maxSeqRow t with
    | none => rfl
    | some m =>
      have hm_seq : m.sequence_id = (t.length : Int) := by
        have := hN
        simp only [nextSeq, hm, Option.map_some', Option.getD_some] at this
        omega
      have : ¬(r.sequence_id ≤ m.sequence_id) := by
        rw [hrseq, hm_seq]; omega
      simp [this]
  have hlen : (t ++ [r]).length = t.length + 1 := by simp
  refine ⟨?_, ?_, ?_⟩
  · intro i hi
    rw [hlen] at hi
    by_cases hit : i < t.length
    · have h1 := hL i hit
      rw [rowAt_append_left t [r] i hit]
      refine ⟨h1.1, ?_⟩
      cases i with
      | zero => exact h1.2
      | succ m =>
        have hm : m < t.length := by omega
        simp only [Nat.add_sub_cancel] at h1 ⊢
        rw [rowAt_append_left t [r] m hm]
        exact h1.2
    · have hieq : i = t.length := by omega
      subst hieq
      rw [rowAt_append_last t r]
      constructor
      · rw [hrseq]; ring
      · rw [hrprev, hLa]
        by_cases h0 : t.length = 0
        · simp [h0]
        · have hlt : t.length - 1 < t.length := by omega
          rw [if_neg h0, if_neg h0, rowAt_append_left t [r] _ hlt]
  · simp only [nextSeq, hmax', Option.map_some', Option.getD_some, hlen, hrseq]
    push_cast
    ring
  · simp only [lastAuditHash, hmax', Option.map_some', Option.getD_some, hlen]
    rw [if_neg (Nat.succ_ne_zero t.length), Nat.add_sub_cancel, rowAt_append_last t r]

/-- Folding successful `create_audit_log` calls preserves the invariant. -/
theorem foldl_appendAudit_inv (hash : String → String) :
    ∀ (inps : List AuditInput) (t : List AuditLog),
      AuditInv t → AuditInv (inps.foldl (appendAudit hash) t) := by
  intro inps
  induction inps with
  | nil => intro t h; exact h
  | cons inp rest ih =>
    intro t h
    exact ih (appendAudit hash t inp) (appendAudit_preserves hash t inp h)

/-- Claim C3: after any sequence of successful `create_audit_log` calls
starting from an empty audit table, the table is chain-linked — the first
entry's `previous_hash` is the 64-character all-zero sentinel, each later
entry's `previous_hash` is the `current_hash` of the entry with
`sequence_id - 1`, and the `sequence_id`s are contiguous from 1. -/
theorem create_audit_log_chain_invariant (hash : String → String)
    (inps : List AuditInput) :
    chainLinked (inps.foldl (appendAudit hash) []) = true ∧
    sentinelHash.length = 64 := by
  constructor
  · have h := (foldl_appendAudit_inv hash inps [] auditInv_nil).1
    rw [chainLinked, decide_eq_true_eq]
    exact h
  · decide

/-- Classification of a rusqlite failure by `execute_with_retry`:
`DatabaseBusy`, `DatabaseLocked`, or any other error code. -/
inductive SqlErr where
  | busy
  | locked
  | other (code : Nat)
deriving DecidableEq, Inhabited

/-- `err.code == DatabaseBusy || err.code == DatabaseLocked`. -/
def retriable : SqlErr → Bool
  | .busy => true
  | .locked => true
  | .other _ => false

/-- What one loop iteration of `execute_with_retry` observes: the mutex
`lock()` fails, or the operation runs and returns `Ok` or `Err`. -/
inductive AttemptRes (α : Type) where
  | lockFail
  | opOk (r : α)
  | opErr (e : SqlErr)

/-- Iterations after which the loop continues to the next attempt:
a failed mutex lock, or an operation error classified busy/locked. -/
def continueClass {α : Type} : AttemptRes α → Bool
  | .lockFail => true
  | .opOk _ => false
  | .opErr e => retriable e

/-- The observable outcome of one `execute_with_retry` call: its returned
value, how many times the operation closure ran, and the sequence of
`thread::sleep` delays (in ms) taken before retries. -/
structure RetryTrace (α : Type) where
  result : Except SqlErr α
  invocations : Nat
  sleeps : List Nat

/-- The fabricated `DatabaseBusy`/"Max retries exceeded" error returned
when the loop ends with no recorded error. -/
def defaultBusyErr : SqlErr := .busy

/-- The loop body of `execute_with_retry` (`MAX_RETRIES = 3`,
`RETRY_DELAY_MS = 100`), with `fuel` the remaining iterations and
`attempt` the current loop index; sleeps `RETRY_DELAY_MS * attempt` before
every iteration with `attempt > 0`. -/
def ewrGo {α : Type} (oracle : Nat → AttemptRes α) :
    Nat → Nat → Option SqlErr → Nat → List Nat → RetryTrace α
  | 0, _, lastErr, inv, sleeps =>
    ⟨.error (lastErr.getD defaultBusyErr), inv, sleeps⟩
  | fuel + 1, attempt, lastErr, inv, sleeps =>
    let sleeps' := if attempt > 0 then sleeps ++ [100 * attempt] else sleeps
    match oracle attempt with
    | .lockFail => ewrGo oracle fuel (attempt + 1) lastErr inv sleeps'
    | .opOk r => ⟨.ok r, inv + 1, sleeps'⟩
    | .opErr e =>
      if retriable e then ewrGo oracle fuel (attempt + 1) (some e) (inv + 1) sleeps'
      else ⟨.error e, inv + 1, sleeps'⟩

/-- `execute_with_retry`: up to 3 attempts from a clean start. -/
def execute_with_retry {α : Type} (oracle : Nat → AttemptRes α) : RetryTrace α :=
  ewrGo oracle 3 0 none 0 []

/-- The last operation error recorded among attempts `< a`
(the loop's `last_error`). -/
def lastOpErrUpTo {α : Type} (oracle : Nat → AttemptRes α) : Nat → Option SqlErr
  | 0 => none
  | a + 1 =>
    match oracle a with
    | .opErr e => some e
    | _ => lastOpErrUpTo oracle a

/-- The delays slept before reaching loop index `a`. -/
def expectedSleeps : Nat → List Nat
  | 0 => []
  | 1 => []
  | 2 => [100]
  | _ => [100, 200]

/-- The operation runs at most `inv + fuel` times. -/
theorem ewrGo_inv_le {α : Type} (oracle : Nat → AttemptRes α) :
    ∀ (fuel attempt : Nat) (lastErr : Option SqlErr) (inv : Nat)
      (sleeps : List Nat),
      (ewrGo oracle fuel attempt lastErr inv sleeps).invocations ≤ inv + fuel := by
  intro fuel
  induction fuel with
  | zero => intro attempt lastErr inv sleeps; simp [ewrGo]
  | succ f ih =>
    intro attempt lastErr inv sleeps
    simp only [ewrGo]
    cases oracle attempt with
    | lockFail =>
      calc (ewrGo oracle f (attempt + 1) lastErr inv _).invocations
          ≤ inv + f := ih _ _ _ _
        _ ≤ inv + (f + 1) := by omega
    | opOk r => simp
    | opErr e =>
      by_cases hr : retriable e
      · simp only [hr, if_true]
        calc (ewrGo oracle f (attempt + 1) (some e) (inv + 1) _).invocations
            ≤ (inv + 1) + f := ih _ _ _ _
          _ ≤ inv + (f + 1) := by omega
      · simp [hr]

/-- The delays slept are always a prefix of the linear schedule
`[100, 200]` (delay `100·k` before the `k`-th retry). -/
theorem ewrGo_sleeps {α : Type} (oracle : Nat → AttemptRes α) :
    ∀ (fuel attempt : Nat) (lastErr : Option SqlErr) (inv : Nat),
      attempt + fuel = 3 →
      (ewrGo oracle fuel attempt lastErr inv (expectedSleeps attempt)).sleeps <+:
        [100, 200] := by
  intro fuel
  induction fuel with
  | zero =>
    intro attempt lastErr inv h
    have ha : attempt = 3 := by omega
    subst ha
    simp [ewrGo, expectedSleeps]
  | succ f ih =>
    intro attempt lastErr inv h
    have ha2 : attempt ≤ 2 := by omega
    have hstep : (if attempt > 0 then expectedSleeps attempt ++ [100 * attempt]
        else expectedSleeps attempt) = expectedSleeps (attempt + 1) := by
      interval_cases attempt <;> simp [expectedSleeps]
    simp only [ewrGo]
    rw [hstep]
    cases horacle : oracle attempt with
    | lockFail => exact ih (attempt + 1) lastErr inv (by omega)
    | opOk r =>
      show expectedSleeps (attempt + 1) <+: [100, 200]
      interval_cases attempt <;> simp [expectedSleeps]
    | opErr e =>
      by_cases hr : retriable e
      · simp only [hr, if_true]
        exact ih (attempt + 1) (some e) (inv + 1) (by omega)
      · simp only [hr, Bool.false_eq_true, if_false]
        show expectedSleeps (attempt + 1) <+: [100, 200]
        interval_cases attempt <;> simp [expectedSleeps]

/-- A non-busy/locked operation error at the first attempt that runs the
operation is surfaced at once, with no further invocation. -/
theorem ewrGo_err_now {α : Type} (oracle : Nat → AttemptRes α) :
    ∀ (fuel attempt : Nat) (lastErr : Option SqlErr) (inv : Nat)
      (sleeps : List Nat) (i : Nat) (e : SqlErr),
      attempt + fuel = 3 → inv ≤ attempt → attempt ≤ i → i < 3 →
      (∀ j, attempt ≤ j → j < i → continueClass (oracle j) = true) →
      oracle i = .opErr e → retriable e = false →
      (ewrGo oracle fuel attempt lastErr inv sleeps).result = .error e ∧
      (ewrGo oracle fuel attempt lastErr inv sleeps).invocations ≤ i + 1 := by
  intro fuel
  induction fuel with
  | zero =>
    intro attempt lastErr inv sleeps i e h3 _ hai hi3 _ _ _
    omega
  | succ f ih =>
    intro attempt lastErr inv sleeps i e h3 hinv hai hi3 hcont hoi hr
    by_cases hae : attempt = i
    · subst hae
      simp only [ewrGo, hoi, hr, Bool.false_eq_true, if_false]
      exact ⟨trivial, by omega⟩
    · have hlt : attempt < i := by omega
      have hca := hcont attempt (le_refl _) hlt
      simp only [ewrGo]
      cases horacle : oracle attempt with
      | lockFail =>
        exact ih (attempt + 1) lastErr inv _ i e (by omega) (by omega)
          (by omega) hi3 (fun j hj1 hj2 => hcont j (by omega) hj2) hoi hr
      | opOk r =>
        rw [horacle] at hca
        simp [continueClass] at hca
      | opErr eprev =>
        rw [horacle] at hca
        have hre : retriable eprev = true := hca
        simp only [hre, if_true]
        exact ih (attempt + 1) (some eprev) (inv + 1) _ i e (by omega) (by omega)
          (by omega) hi3 (fun j hj1 hj2 => hcont j (by omega) hj2) hoi hr

/-- A successful operation at the first attempt that runs it returns its
value at once, with no further invocation. -/
theorem ewrGo_ok_now {α : Type} (oracle : Nat → AttemptRes α) :
    ∀ (fuel attempt : Nat) (lastErr : Option SqlErr) (inv : Nat)
      (sleeps : List Nat) (i : Nat) (r : α),
      attempt + fuel = 3 → inv ≤ attempt → attempt ≤ i → i < 3 →
      (∀ j, attempt ≤ j → j < i → continueClass (oracle j) = true) →
      oracle i = .opOk r →
      (ewrGo oracle fuel attempt lastErr inv sleeps).result = .ok r ∧
      (ewrGo oracle fuel attempt lastErr inv sleeps).invocations ≤ i + 1 := by
  intro fuel
  induction fuel with
  | zero =>
    intro attempt lastErr inv sleeps i r h3 _ hai hi3 _ _
    omega
  | succ f ih =>
    intro attempt lastErr inv sleeps i r h3 hinv hai hi3 hcont hoi
    by_cases hae : attempt = i
    · subst hae
      simp only [ewrGo, hoi]
      exact ⟨trivial, by omega⟩
    · have hlt : attempt < i := by omega
      have hca := hcont attempt (le_refl _) hlt
      simp only [ewrGo]
      cases horacle : oracle attempt with
      | lockFail =>
        exact ih (attempt + 1) lastErr inv _ i r (by omega) (by omega)
          (by omega) hi3 (fun j hj1 hj2 => hcont j (by omega) hj2) hoi
      | opOk rr =>
        rw [horacle] at hca
        simp [continueClass] at hca
      | opErr eprev =>
        rw [horacle] at hca
        have hre : retriable eprev = true := hca
        simp only [hre, if_true]
        exact ih (attempt + 1) (some eprev) (inv + 1) _ i r (by omega) (by omega)
          (by omega) hi3 (fun j hj1 hj2 => hcont j (by omega) hj2) hoi

/-- When every attempt keeps the loop going, the last recorded operation
error (or the fabricated busy error) is returned. -/
theorem ewrGo_exhaust {α : Type} (oracle : Nat → AttemptRes α) :
    ∀ (fuel attempt : Nat) (lastErr : Option SqlErr) (inv : Nat)
      (sleeps : List Nat),
      attempt + fuel = 3 →
      lastErr = lastOpErrUpTo oracle attempt →
      (∀ j, attempt ≤ j → j < 3 → continueClass (oracle j) = true) →
      (ewrGo oracle fuel attempt lastErr inv sleeps).result =
        .error ((lastOpErrUpTo oracle 3).getD defaultBusyErr) := by
  intro fuel
  induction fuel with
  | zero =>
    intro attempt lastErr inv sleeps h3 hlast _
    have ha : attempt = 3 := by omega
    subst ha
    rw [hlast]
    simp [ewrGo]
  | succ f ih =>
    intro attempt lastErr inv sleeps h3 hlast hcont
    have hlt : attempt < 3 := by omega
    have hca := hcont attempt (le_refl _) hlt
    simp only [ewrGo]
    cases horacle : oracle attempt with
    | lockFail =>
      apply ih (attempt + 1) lastErr inv _ (by omega)
      · rw [hlast]
        show lastOpErrUpTo oracle attempt = lastOpErrUpTo oracle (attempt + 1)
        simp [lastOpErrUpTo, horacle]
      · exact fun j hj1 hj2 => hcont j (by omega) hj2
    | opOk r =>
      rw [horacle] at hca
      simp [continueClass] at hca
    | opErr eprev =>
      rw [horacle] at hca
      have hre : retriable eprev = true := hca
      simp only [hre, if_true]
      apply ih (attempt + 1) (some eprev) (inv + 1) _ (by omega)
      · show some eprev = lastOpErrUpTo oracle (attempt + 1)
        simp [lastOpErrUpTo, horacle]
      · exact fun j hj1 hj2 => hcont j (by omega) hj2

/-- Claim C5: `execute_with_retry` runs the operation at most 3 times; the
delays slept before retries follow the linear `100·k` ms schedule (so at
most `[100, 200]`); an operation outcome that is a success or an error not
classified busy/locked ends the loop at once with that outcome and no
further invocation; and when every attempt keeps the loop going, the last
recorded error (or the fabricated busy error) is surfaced instead of
blocking. -/
theorem execute_with_retry_policy {α : Type} (oracle : Nat → AttemptRes α) :
    (execute_with_retry oracle).invocations ≤ 3 ∧
    (execute_with_retry oracle).sleeps <+: [100, 200] ∧
    (∀ (i : Nat) (e : SqlErr), i < 3 →
      (∀ j, j < i → continueClass (oracle j) = true) →
      oracle i = .opErr e → retriable e = false →
      (execute_with_retry oracle).result = .error e ∧
      (execute_with_retry oracle).invocations ≤ i + 1) ∧
    (∀ (i : Nat) (r : α), i < 3 →
      (∀ j, j < i → continueClass (oracle j) = true) →
      oracle i = .opOk r →
      (execute_with_retry oracle).result = .ok r ∧
      (execute_with_retry oracle).invocations ≤ i + 1) ∧
    ((∀ j, j < 3 → continueClass (oracle j) = true) →
      (execute_with_retry oracle).result =
        .error ((lastOpErrUpTo oracle 3).getD defaultBusyErr)) := by
  refine ⟨?_, ?_, ?_, ?_, ?_⟩
  · exact ewrGo_inv_le oracle 3 0 none 0 []
  · exact ewrGo_sleeps oracle 3 0 none 0 rfl
  · intro i e hi3 hcont hoi hr
    exact ewrGo_err_now oracle 3 0 none 0 [] i e rfl (by omega) (by omega) hi3
      (fun j _ hj2 => hcont j hj2) hoi hr
  · intro i r hi3 hcont hoi
    exact ewrGo_ok_now oracle 3 0 none 0 [] i r rfl (by omega) (by omega) hi3
      (fun j _ hj2 => hcont j hj2) hoi
  · intro hcont
    exact ewrGo_exhaust oracle 3 0 none 0 [] rfl rfl
      (fun j _ hj2 => hcont j hj2)

/-- Witness for `execute_with_retry_policy`: a busy failure followed by a
success retries exactly once, sleeping 100 ms, and returns the value. -/
theorem execute_with_retry_policy_witness :
    (execute_with_retry (fun n =>
        match n with
        | 0 => AttemptRes.opErr SqlErr.busy
        | 1 => AttemptRes.opOk (7 : Nat)
        | _ => AttemptRes.lockFail)).result = .ok 7 ∧
    (execute_with_retry (fun n =>
        match n with
        | 0 => AttemptRes.opErr SqlErr.busy
        | 1 => AttemptRes.opOk (7 : Nat)
        | _ => AttemptRes.lockFail)).invocations ≤ 2 := by
  have h := execute_with_retry_policy (fun n =>
    match n with
    | 0 => AttemptRes.opErr SqlErr.busy
    | 1 => AttemptRes.opOk (7 : Nat)
    | _ => AttemptRes.lockFail)
  have h4 := h.2.2.2.1 1 7 (by omega)
    (fun j hj => by interval_cases j; rfl) rfl
  exact ⟨h4.1, h4.2⟩

/-- The connection state seen by `create_audit_log`: the durably committed
rows of `audit_logs`, whether an explicit transaction is open on the
connection, and the rows inserted inside that open transaction (visible to
no reader until `COMMIT`). -/
structure ConnState where
  committed : List AuditLog
  txnOpen : Bool
  pending : List AuditLog

/-- Which of the four SQL steps of one `create_audit_log` attempt fail
(`BEGIN IMMEDIATE`, the last-hash `SELECT`, the `INSERT`, the `COMMIT`). -/
structure TxOracle where
  beginErr : Option SqlErr
  selectErr : Option SqlErr
  insertErr : Option SqlErr
  commitErr : Option SqlErr

/-- One run of the closure body of `create_audit_log`: `BEGIN IMMEDIATE`
(which fails with a non-busy `SQLITE_ERROR` when a transaction is already
open on the connection — the code never rolls back on failure), the
in-transaction last-hash read, the insert, and the `COMMIT` that alone
publishes the pending row. -/
def runCreateOnce (hash : String → String) (inp : AuditInput) (o : TxOracle)
    (s : ConnState) : Except SqlErr AuditLog × ConnState :=
  if s.txnOpen then
    (.error (.other 1), s)
  else
    match o.beginErr with
    | some e => (.error e, s)
    | none =>
      let s1 : ConnState := { s with txnOpen := true }
      match o.selectErr with
      | some e => (.error e, s1)
      | none =>
        let prev := lastAuditHash (s1.committed ++ s1.pending)
        let row := mkLog hash prev (nextSeq (s1.committed ++ s1.pending)) inp
        match o.insertErr with
        | some e => (.error e, s1)
        | none =>
          let s2 : ConnState := { s1 with pending := s1.pending ++ [row] }
          match o.commitErr with
          | some e => (.error e, s2)
          | none =>
            (.ok row,
             { committed := s2.committed ++ s2.pending, txnOpen := false,
               pending := [] })

/-- What one loop iteration of the retry wrapper around the audit insert
observes: the mutex fails, or the closure runs with the given step
outcomes. -/
inductive TxAttempt where
  | lockFail
  | tx (o : TxOracle)

/-- The retry loop of `execute_with_retry` threading the connection state
through the audit-insert closure. -/
def createRetryGo (hash : String → String) (inp : AuditInput)
    (oracle : Nat → TxAttempt) :
    Nat → Nat → Option SqlErr → ConnState →
      Except SqlErr AuditLog × ConnState
  | 0, _, lastErr, s => (.error (lastErr.getD defaultBusyErr), s)
  | fuel + 1, attempt, lastErr, s =>
    match oracle attempt with
    | .lockFail => createRetryGo hash inp oracle fuel (attempt + 1) lastErr s
    | .tx o =>
      match runCreateOnce hash inp o s with
      | (.ok r, s') => (.ok r, s')
      | (.error e, s') =>
        if retriable e then
          createRetryGo hash inp oracle fuel (attempt + 1) (some e) s'
        else (.error e, s')

/-- `create_audit_log`: the retried atomic read-then-insert. -/
def create_audit_log (hash : String → String) (inp : AuditInput)
    (oracle : Nat → TxAttempt) (s : ConnState) :
    Except SqlErr AuditLog × ConnState :=
  createRetryGo hash inp oracle 3 0 none s

/-- One closure run either fails leaving the committed table unchanged
(and never leaves uncommitted rows on a closed transaction), or succeeds
publishing exactly the one new row. -/
theorem runCreateOnce_spec (hash : String → String) (inp : AuditInput)
    (o : TxOracle) (s : ConnState)
    (hinv : s.txnOpen = false → s.pending = []) :
    (∀ e s', runCreateOnce hash inp o s = (.error e, s') →
      s'.committed = s.committed ∧ (s'.txnOpen = false → s'.pending = [])) ∧
    (∀ r s', runCreateOnce hash inp o s = (.ok r, s') →
      s'.committed = s.committed ++ [r] ∧ s'.pending = [] ∧
        s'.txnOpen = false) := by
  cases htxn : s.txnOpen with
  | true =>
    constructor
    · intro e s' h
      simp only [runCreateOnce, htxn, if_true] at h
      obtain ⟨-, h2⟩ := Prod.mk.injEq .. ▸ h
      subst h2
      exact ⟨rfl, fun hf => hinv hf⟩
    · intro r s' h
      simp [runCreateOnce, htxn] at h
  | false =>
    have hpend : s.pending = [] := hinv htxn
    cases hb : o.beginErr with
    | some e0 =>
      constructor
      · intro e s' h
        simp only [runCreateOnce, htxn, Bool.false_eq_true, if_false, hb] at h
        obtain ⟨h1, h2⟩ := Prod.mk.injEq .. ▸ h
        subst h2
        exact ⟨rfl, fun _ => hpend⟩
      · intro r s' h
        simp [runCreateOnce, htxn, hb] at h
    | none =>
      cases hs : o.selectErr with
      | some e0 =>
        constructor
        · intro e s' h
          simp only [runCreateOnce, htxn, Bool.false_eq_true, if_false, hb,
            hs] at h
          obtain ⟨h1, h2⟩ := Prod.mk.injEq .. ▸ h
          subst h2
          exact ⟨rfl, by simp⟩
        · intro r s' h
          simp [runCreateOnce, htxn, hb, hs] at h
      | none =>
        cases hi : o.insertErr with
        | some e0 =>
          constructor
          · intro e s' h
            simp only [runCreateOnce, htxn, Bool.false_eq_true, if_false, hb,
              hs, hi] at h
            obtain ⟨h1, h2⟩ := Prod.mk.injEq .. ▸ h
            subst h2
            exact ⟨rfl, by simp⟩
          · intro r s' h
            simp [runCreateOnce, htxn, hb, hs, hi] at h
        | none =>
          cases hc : o.commitErr with
          | some e0 =>
            constructor
            · intro e s' h
              simp only [runCreateOnce, htxn, Bool.false_eq_true, if_false,
                hb, hs, hi, hc] at h
              obtain ⟨h1, h2⟩ := Prod.mk.injEq .. ▸ h
              subst h2
              exact ⟨rfl, by simp⟩
            · intro r s' h
              simp [runCreateOnce, htxn, hb, hs, hi, hc] at h
          | none =>
            constructor
            · intro e s' h
              simp [runCreateOnce, htxn, hb, hs, hi, hc] at h
            · intro r s' h
              simp only [runCreateOnce, htxn, Bool.false_eq_true, if_false,
                hb, hs, hi, hc] at h
              obtain ⟨h1, h2⟩ := Prod.mk.injEq .. ▸ h
              subst h2
              injection h1 with hr
              subst hr
              refine ⟨by simp [hpend], rfl, rfl⟩

/-- The retry loop around the audit insert: every error outcome leaves the
committed table unchanged; the ok outcome publishes exactly one new row. -/
theorem createRetryGo_spec (hash : String → String) (inp : AuditInput)
    (oracle : Nat → TxAttempt) :
    ∀ (fuel attempt : Nat) (lastErr : Option SqlErr) (s : ConnState),
      (s.txnOpen = false → s.pending = []) →
      (∀ e s', createRetryGo hash inp oracle fuel attempt lastErr s =
          (.error e, s') → s'.committed = s.committed) ∧
      (∀ r s', createRetryGo hash inp oracle fuel attempt lastErr s =
          (.ok r, s') →
        s'.committed = s.committed ++ [r] ∧ s'.pending = [] ∧
          s'.txnOpen = false) := by
  intro fuel
  induction fuel with
  | zero =>
    intro attempt lastErr s hinv
    constructor
    · intro e s' h
      simp only [createRetryGo] at h
      obtain ⟨-, h2⟩ := Prod.mk.injEq .. ▸ h
      subst h2
      rfl
    · intro r s' h
      simp [createRetryGo] at h
  | succ f ih =>
    intro attempt lastErr s hinv
    constructor
    · intro e s' h
      cases horacle : oracle attempt with
      | lockFail =>
        simp only [createRetryGo, horacle] at h
        exact (ih (attempt + 1) lastErr s hinv).1 e s' h
      | tx o =>
        simp only [createRetryGo, horacle] at h
        cases hrun : runCreateOnce hash inp o s with
        | mk res s1 =>
          rw [hrun] at h
          cases res with
          | ok r =>
            simp at h
          | error e1 =>
            have hstep := (runCreateOnce_spec hash inp o s hinv).1 e1 s1 hrun
            by_cases hr : retriable e1
            · simp only [hr, if_true] at h
              have := (ih (attempt + 1) (some e1) s1 hstep.2).1 e s' h
              rw [this, hstep.1]
            · simp only [hr, Bool.false_eq_true, if_false] at h
              obtain ⟨-, h2⟩ := Prod.mk.injEq .. ▸ h
              subst h2
              exact hstep.1
    · intro r s' h
      cases horacle : oracle attempt with
      | lockFail =>
        simp only [createRetryGo, horacle] at h
        exact (ih (attempt + 1) lastErr s hinv).2 r s' h
      | tx o =>
        simp only [createRetryGo, horacle] at h
        cases hrun : runCreateOnce hash inp o s with
        | mk res s1 =>
          rw [hrun] at h
          cases res with
          | ok r1 =>
            have hstep := (runCreateOnce_spec hash inp o s hinv).2 r1 s1 hrun
            obtain ⟨h1, h2⟩ := Prod.mk.injEq .. ▸ h
            injection h1 with hr1
            subst h2
            subst hr1
            exact hstep
          | error e1 =>
            have hstep := (runCreateOnce_spec hash inp o s hinv).1 e1 s1 hrun
            by_cases hr : retriable e1
            · simp only [hr, if_true] at h
              have := (ih (attempt + 1) (some e1) s1 hstep.2).2 r s' h
              rw [hstep.1] at this
              exact this
            · simp only [hr, Bool.false_eq_true, if_false] at h
              simp at h

/-- Claim C4: `create_audit_log` is atomic with respect to the audit
table — starting from a connection with no open transaction and no
pending rows, an error result leaves the committed audit table unchanged
(no partial or complete new entry is visible), and an `Ok` result
publishes exactly one new row. -/
theorem create_audit_log_atomic (hash : String → String) (inp : AuditInput)
    (oracle : Nat → TxAttempt) (s : ConnState)
    (_htxn : s.txnOpen = false) (hpend : s.pending = []) :
    (∀ e s', create_audit_log hash inp oracle s = (.error e, s') →
      s'.committed = s.committed) ∧
    (∀ r s', create_audit_log hash inp oracle s = (.ok r, s') →
      s'.committed = s.committed ++ [r] ∧ s'.pending = [] ∧
        s'.txnOpen = false) :=
  createRetryGo_spec hash inp oracle 3 0 none s (fun _ => hpend)

/-- A concrete `create_audit_log` call for the atomicity witness. -/
def cexInp : AuditInput :=
  { id := "b7c1"
    user_id := "u1"
    username := "alice"
    action := "LOGIN"
    resource_type := "auth"
    resource_id := none
    resource_name := none
    ip_address := none
    user_agent := none
    file_hash := none
    metadata := "{}"
    timestamp := "2024-01-01T00:00:00+00:00"
    is_success := true }

/-- Witness for `create_audit_log_atomic`: a fully successful call on the
empty table commits exactly the one new row. -/
theorem create_audit_log_atomic_witness :
    (create_audit_log (fun s => s) cexInp
        (fun _ => TxAttempt.tx ⟨none, none, none, none⟩)
        ⟨[], false, []⟩).2.committed =
      [] ++ [mkLog (fun s => s) sentinelHash 1 cexInp] := by
  have h := (create_audit_log_atomic (fun s => s) cexInp
      (fun _ => TxAttempt.tx ⟨none, none, none, none⟩)
      ⟨[], false, []⟩ rfl rfl).2
      (mkLog (fun s => s) sentinelHash 1 cexInp)
      ⟨[] ++ ([] ++ [mkLog (fun s => s) sentinelHash 1 cexInp]), false, []⟩
      rfl
  exact h.1

/-- A file tree under `filesRoot` as `read_dir` traversal sees it. -/
inductive FsEntry where
  | file (name : String) (content : List Nat)
  | dir (name : String) (entries : List FsEntry)

/-- Number of files (leaves) in a list of entries. -/
def countFiles : List FsEntry → Nat
  | [] => 0
  | .file _ _ :: es => 1 + countFiles es
  | .dir _ sub :: es => countFiles sub + countFiles es

mutual
/-- `add_directory_to_zip` on one entry: a file becomes the archive entry
`prefix ++ "/" ++ name`; a directory recurses with the extended prefix. -/
def addEntry (pre : String) : FsEntry → List (String × List Nat)
  | .file name content => [(pre ++ "/" ++ name, content)]
  | .dir name entries => addList (pre ++ "/" ++ name) entries

/-- `add_directory_to_zip` over the entries of one directory, in
traversal order. -/
def addList (pre : String) : List FsEntry → List (String × List Nat)
  | [] => []
  | e :: es => addEntry pre e ++ addList pre es
end

/-- The manifest struct `BackupInfo` (timestamps kept as text). -/
structure BackupInfo where
  created_at : String
  version : String
  database_size : Nat
  files_count : Nat
  checksum : String
deriving DecidableEq, Inhabited

/-- The `BackupError` variants. -/
inductive BackupErr where
  | ioErr
  | zipErr
  | dbErr
  | validation (msg : String)
deriving DecidableEq

/-- `u64::to_le_bytes` of a copied item's byte count, as fed to the
checksum hasher. -/
def le64 (n : Nat) : List Nat :=
  [n % 256, n / 256 % 256, n / 256 ^ 2 % 256, n / 256 ^ 3 % 256,
   n / 256 ^ 4 % 256, n / 256 ^ 5 % 256, n / 256 ^ 6 % 256, n / 256 ^ 7 % 256]

/-- The byte-lengths of the copied items in the order the hasher sees
them: the store file first, then every file in traversal order. -/
def backupSizes (dbBytes : List Nat)
    (fileEntries : List (String × List Nat)) : List Nat :=
  dbBytes.length :: fileEntries.map (fun p => p.2.length)

/-- The manifest `create_backup` writes: the coarse checksum is the hash
of the concatenated little-endian encodings of the item sizes. -/
def backupManifest (shaHex : List Nat → String)
    (created_at version : String) (dbBytes : List Nat)
    (fileEntries : List (String × List Nat)) : BackupInfo :=
  { created_at := created_at
    version := version
    database_size := dbBytes.length
    files_count := 1 + fileEntries.length
    checksum := shaHex ((backupSizes dbBytes fileEntries).map le64).flatten }

/-- `create_backup`: fails if the store file is missing; otherwise copies
the store bytes under `database.db`, every file under `files/…`, and the
JSON manifest under `backup_info.json`, returning the manifest. -/
def create_backup (shaHex : List Nat → String) (encB : BackupInfo → List Nat)
    (created_at version : String) (db : Option (List Nat))
    (filesDir : Option (List FsEntry)) :
    Except BackupErr (List (String × List Nat) × BackupInfo) :=
  match db with
  | none => .error (.validation "Banco de dados não encontrado")
  | some dbBytes =>
    let fileEntries :=
      match filesDir with
      | some entries => addList "files" entries
      | none => []
    let info := backupManifest shaHex created_at version dbBytes fileEntries
    .ok (("database.db", dbBytes) :: fileEntries ++
      [("backup_info.json", encB info)], info)

/-- `ZipArchive::by_name`: the first entry with exactly this name. -/
def lookupEntry (name : String) : List (String × List Nat) → Option (List Nat)
  | [] => none
  | (n, c) :: rest => if n = name then some c else lookupEntry name rest

/-- Rust `str::contains`: substring containment. -/
def containsSub (hay needle : String) : Bool := decide (needle.data <:+: hay.data)

/-- `verify_backup`: requires the archive to exist, the two required
entries to be present (by substring containment over the entry names, as
the code checks), the manifest to parse, the extracted store snapshot to
pass the engine's structural-integrity check, and the three required
tables to exist.  `integrityOk` and `tablesOf` model what SQLite reports
about the snapshot bytes; `decB` models `serde_json::from_str`. -/
def verify_backup (integrityOk : List Nat → Bool)
    (tablesOf : List Nat → List String) (decB : List Nat → Option BackupInfo)
    (archive : Option (List (String × List Nat))) :
    Except BackupErr BackupInfo :=
  match archive with
  | none => .error (.validation "Arquivo de backup não encontrado")
  | some ar =>
    let found := ar.map (·.1)
    if ! found.any (fun f => containsSub f "database.db") then
      .error (.validation
        "Arquivo obrigatório 'database.db' não encontrado no backup")
    else if ! found.any (fun f => containsSub f "backup_info.json") then
      .error (.validation
        "Arquivo obrigatório 'backup_info.json' não encontrado no backup")
    else
      match lookupEntry "backup_info.json" ar with
      | none => .error .zipErr
      | some mbytes =>
        match decB mbytes with
        | none => .error (.validation "JSON inválido")
        | some info =>
          match lookupEntry "database.db" ar with
          | none => .error .zipErr
          | some dbBytes =>
            if ! integrityOk dbBytes then
              .error (.validation "Banco de dados corrompido")
            else if ! (tablesOf dbBytes).contains "users" then
              .error (.validation "Tabela obrigatória 'users' não encontrada")
            else if ! (tablesOf dbBytes).contains "documents" then
              .error (.validation
                "Tabela obrigatória 'documents' não encontrada")
            else if ! (tablesOf dbBytes).contains "activities" then
              .error (.validation
                "Tabela obrigatória 'activities' não encontrada")
            else .ok info

/-- The restore target: the store file and the files directory. -/
structure TargetFs where
  dbFile : Option (List Nat)
  files : List (String × List Nat)
deriving DecidableEq

/-- Extraction of the `files/…` archive entries over the target files
directory (entries with the `files/` prefix, overwriting by relative
path). -/
def restoreFiles (ar : List (String × List Nat))
    (files : List (String × List Nat)) : List (String × List Nat) :=
  ar.foldl
    (fun acc e =>
      if e.1.startsWith "files/" && ! e.1.endsWith "/" then
        (e.1.drop 6, e.2) :: acc.filter (fun p => ¬ p.1 = e.1.drop 6)
      else acc)
    files

/-- `restore_backup`: verifies first and aborts on failure; only then
overwrites the target store file, repopulates the target files directory,
and re-checks the restored store's integrity. -/
def restore_backup (integrityOk : List Nat → Bool)
    (tablesOf : List Nat → List String) (decB : List Nat → Option BackupInfo)
    (archive : Option (List (String × List Nat))) (fs : TargetFs) :
    Except BackupErr BackupInfo × TargetFs :=
  match verify_backup integrityOk tablesOf decB archive with
  | .error e => (.error e, fs)
  | .ok info =>
    match archive with
    | none => (.error .zipErr, fs)
    | some ar =>
      match lookupEntry "database.db" ar with
      | none => (.error .zipErr, fs)
      | some dbBytes =>
        let fs1 : TargetFs := { dbFile := some dbBytes,
                                files := restoreFiles ar fs.files }
        if ! integrityOk dbBytes then
          (.error (.validation "Banco de dados restaurado está corrompido"),
           fs1)
        else (.ok info, fs1)

/-- Claim C6: `restore_backup` runs `verify_backup` first and aborts on
any verification failure before touching the target: whenever
verification fails, restore returns that same error and leaves the target
store file and files directory unchanged. -/
theorem restore_backup_verify_first (integrityOk : List Nat → Bool)
    (tablesOf : List Nat → List String) (decB : List Nat → Option BackupInfo)
    (archive : Option (List (String × List Nat))) (fs : TargetFs)
    (e : BackupErr)
    (h : verify_backup integrityOk tablesOf decB archive = .error e) :
    restore_backup integrityOk tablesOf decB archive fs = (.error e, fs) := by
  unfold restore_backup
  rw [h]

/-- Witness for `restore_backup_verify_first`: restoring from a missing
archive leaves a concrete target byte-for-byte unchanged. -/
theorem restore_backup_verify_first_witness :
    restore_backup (fun _ => true) (fun _ => []) (fun _ => none) none
      ⟨some [1], [("a", [2])]⟩ =
      (.error (.validation "Arquivo de backup não encontrado"),
       ⟨some [1], [("a", [2])]⟩) :=
  restore_backup_verify_first (fun _ => true) (fun _ => []) (fun _ => none)
    none ⟨some [1], [("a", [2])]⟩ _ rfl

mutual
/-- Every archive entry produced from one tree entry is named under the
given prefix. -/
theorem addEntry_name_shape (e : FsEntry) :
    ∀ (pre : String) (p : String × List Nat),
      p ∈ addEntry pre e → ∃ suf, p.1 = pre ++ "/" ++ suf :=
  match e with
  | .file name content => by
    intro pre p hp
    simp only [addEntry, List.mem_singleton] at hp
    exact ⟨name, by rw [hp]⟩
  | .dir name entries => by
    intro pre p hp
    simp only [addEntry] at hp
    obtain ⟨suf, hsuf⟩ := addList_name_shape entries (pre ++ "/" ++ name) p hp
    exact ⟨name ++ "/" ++ suf, by rw [hsuf]; simp [String.append_assoc]⟩

/-- Every archive entry produced from a tree is named under the prefix. -/
theorem addList_name_shape (l : List FsEntry) :
    ∀ (pre : String) (p : String × List Nat),
      p ∈ addList pre l → ∃ suf, p.1 = pre ++ "/" ++ suf :=
  match l with
  | [] => by intro pre p hp; simp [addList] at hp
  | e :: es => by
    intro pre p hp
    simp only [addList, List.mem_append] at hp
    cases hp with
    | inl h => exact addEntry_name_shape e pre p h
    | inr h => exact addList_name_shape es pre p h
end

mutual
/-- One tree entry contributes one archive entry per file leaf. -/
theorem addEntry_length (e : FsEntry) :
    ∀ pre : String, (addEntry pre e).length = countFiles [e] :=
  match e with
  | .file name content => by intro pre; simp [addEntry, countFiles]
  | .dir name entries => by
    intro pre
    simp only [addEntry, countFiles]
    rw [addList_length entries]
    simp

/-- The archive entries of a tree are exactly its file leaves. -/
theorem addList_length (l : List FsEntry) :
    ∀ pre : String, (addList pre l).length = countFiles l :=
  match l with
  | [] => by intro pre; simp [addList, countFiles]
  | e :: es => by
    intro pre
    simp only [addList, List.length_append]
    rw [addEntry_length e, addList_length es]
    cases e <;> simp [countFiles]
end

/-- Looking the manifest up skips entries with other names. -/
theorem lookup_manifest_skip (m : List Nat) :
    ∀ fe : List (String × List Nat),
      (∀ p ∈ fe, p.1 ≠ "backup_info.json") →
      lookupEntry "backup_info.json" (fe ++ [("backup_info.json", m)]) =
        some m := by
  intro fe
  induction fe with
  | nil => intro _; simp [lookupEntry]
  | cons p rest ih =>
    intro h
    have hp := h p (by simp)
    simp only [List.cons_append, lookupEntry]
    rw [if_neg hp]
    exact ih (fun q hq => h q (by simp [hq]))

/-- No `files/…` entry is named like the manifest entry. -/
theorem files_name_ne_manifest (suf : String) :
    "files" ++ "/" ++ suf ≠ "backup_info.json" := by
  intro h
  have hd := congrArg String.data h
  simp [String.data_append] at hd

/-- The archive produced by a successful `create_backup`. -/
def roundtripArchive (shaHex : List Nat → String) (encB : BackupInfo → List Nat)
    (created_at version : String) (dbBytes : List Nat)
    (filesDir : List FsEntry) : List (String × List Nat) :=
  ("database.db", dbBytes) :: addList "files" filesDir ++
    [("backup_info.json",
      encB (backupManifest shaHex created_at version dbBytes
        (addList "files" filesDir)))]

/-- Claim C7 (amended): for every existing store file that passes the
engine's structural-integrity check and contains the three required
tables, and a files directory with any file tree, `create_backup` succeeds
and a subsequent `verify_backup` of the produced archive succeeds and
returns the very manifest `create_backup` returned (given that the JSON
codec round-trips it), whose `database_size` is the number of bytes copied
from the store file and whose `files_count` is the number of copied items:
the store snapshot plus every file under the directory, so N files yield
`files_count = N + 1`. -/
theorem backup_roundtrip_verified (shaHex : List Nat → String)
    (encB : BackupInfo → List Nat) (decB : List Nat → Option BackupInfo)
    (integrityOk : List Nat → Bool) (tablesOf : List Nat → List String)
    (created_at version : String) (dbBytes : List Nat)
    (filesDir : List FsEntry)
    (hint : integrityOk dbBytes = true)
    (ht1 : (tablesOf dbBytes).contains "users" = true)
    (ht2 : (tablesOf dbBytes).contains "documents" = true)
    (ht3 : (tablesOf dbBytes).contains "activities" = true)
    (hcodec : decB (encB (backupManifest shaHex created_at version dbBytes
        (addList "files" filesDir))) =
      some (backupManifest shaHex created_at version dbBytes
        (addList "files" filesDir))) :
    create_backup shaHex encB created_at version (some dbBytes)
        (some filesDir) =
      .ok (roundtripArchive shaHex encB created_at version dbBytes filesDir,
        backupManifest shaHex created_at version dbBytes
          (addList "files" filesDir)) ∧
    verify_backup integrityOk tablesOf decB
        (some (roundtripArchive shaHex encB created_at version dbBytes
          filesDir)) =
      .ok (backupManifest shaHex created_at version dbBytes
        (addList "files" filesDir)) ∧
    (backupManifest shaHex created_at version dbBytes
      (addList "files" filesDir)).database_size = dbBytes.length ∧
    (backupManifest shaHex created_at version dbBytes
      (addList "files" filesDir)).files_count = countFiles filesDir + 1 := by
  have hne : ∀ p ∈ addList "files" filesDir, p.1 ≠ "backup_info.json" := by
    intro p hp
    obtain ⟨suf, hs⟩ := addList_name_shape filesDir "files" p hp
    rw [hs]
    exact files_name_ne_manifest suf
  have hlookM : lookupEntry "backup_info.json"
      (roundtripArchive shaHex encB created_at version dbBytes filesDir) =
      some (encB (backupManifest shaHex created_at version dbBytes
        (addList "files" filesDir))) := by
    simp only [roundtripArchive, lookupEntry]
    rw [if_neg (by decide)]
    exact lookup_manifest_skip _ _ hne
  have hlookD : lookupEntry "database.db"
      (roundtripArchive shaHex encB created_at version dbBytes filesDir) =
      some dbBytes := by
    simp [roundtripArchive, lookupEntry]
  have hany1 : ((roundtripArchive shaHex encB created_at version dbBytes
      filesDir).map (·.1)).any (fun f => containsSub f "database.db") =
      true := by
    have hc : containsSub "database.db" "database.db" = true := by decide
    simp [roundtripArchive, hc]
  have hany2 : ((roundtripArchive shaHex encB created_at version dbBytes
      filesDir).map (·.1)).any (fun f => containsSub f "backup_info.json") =
      true := by
    apply List.any_eq_true.mpr
    refine ⟨"backup_info.json", ?_, by decide⟩
    simp [roundtripArchive]
  refine ⟨rfl, ?_, rfl, ?_⟩
  · simp only [verify_backup, hany1, hany2, Bool.not_true, Bool.false_eq_true,
      if_false, hlookM, hcodec, hlookD, hint, ht1, ht2, ht3]
  · simp only [backupManifest, addList_length]
    omega

/-- Witness for `backup_roundtrip_verified`: a one-byte store file and an
empty files directory round-trip, with manifest sizes 1 and count 1. -/
theorem backup_roundtrip_verified_witness :
    verify_backup (fun _ => true)
        (fun _ => ["users", "documents", "activities"])
        (fun _ => some ⟨"t", "v", 1, 1, "h"⟩)
        (some (roundtripArchive (fun _ => "h") (fun _ => [0]) "t" "v" [7]
          [])) =
      .ok ⟨"t", "v", 1, 1, "h"⟩ := by
  have h := backup_roundtrip_verified (fun _ => "h") (fun _ => [0])
    (fun _ => some ⟨"t", "v", 1, 1, "h"⟩) (fun _ => true)
    (fun _ => ["users", "documents", "activities"]) "t" "v" [7] []
    rfl (by decide) (by decide) (by decide) rfl
  exact h.2.1

/-- Claim C7, counterexample to the unamended statement: `create_backup`
succeeds on an existing store file whose bytes the engine's
structural-integrity check rejects (modelled by the integrity oracle
returning false on them), but the subsequent `verify_backup` fails — so
the round-trip does not succeed for *every* existing store file. -/
theorem backup_roundtrip_fails_on_corrupt_store :
    create_backup (fun _ => "h") (fun _ => [0]) "t" "v" (some [9]) (some []) =
      .ok ([("database.db", [9]), ("backup_info.json", [0])],
        ⟨"t", "v", 1, 1, "h"⟩) ∧
    verify_backup (fun _ => false)
        (fun _ => ["users", "documents", "activities"])
        (fun _ => some ⟨"t", "v", 1, 1, "h"⟩)
        (some [("database.db", [9]), ("backup_info.json", [0])]) =
      .error (.validation "Banco de dados corrompido") := by
  exact ⟨rfl, rfl⟩

/-- Claim C8: the manifest checksum is a function only of the sequence of
byte-lengths of the copied items (store file first, then each file in
traversal order): two backup runs whose items have pairwise equal lengths
in the same order produce the identical checksum, whatever the contents. -/
theorem backup_checksum_length_only (shaHex : List Nat → String)
    (encB encB' : BackupInfo → List Nat) (ca ca' v v' : String)
    (db1 db2 : List Nat) (f1 f2 : List FsEntry)
    (hdb : db1.length = db2.length)
    (hsz : (addList "files" f1).map (fun p => p.2.length) =
      (addList "files" f2).map (fun p => p.2.length)) :
    (create_backup shaHex encB ca v (some db1) (some f1)).map
        (fun p => p.2.checksum) =
      (create_backup shaHex encB' ca' v' (some db2) (some f2)).map
        (fun p => p.2.checksum) := by
  simp only [create_backup, Except.map, backupManifest, backupSizes, hdb, hsz]

/-- Witness for `backup_checksum_length_only`: two runs with different
store and file contents of equal lengths give the same checksum. -/
theorem backup_checksum_length_only_witness :
    (create_backup (fun b => toString (b.foldl Nat.add 0)) (fun _ => [])
        "t" "v" (some [1]) (some [FsEntry.file "a" [5]])).map
        (fun p => p.2.checksum) =
      (create_backup (fun b => toString (b.foldl Nat.add 0)) (fun _ => [])
        "t2" "v2" (some [2]) (some [FsEntry.file "a" [9]])).map
        (fun p => p.2.checksum) :=
  backup_checksum_length_only (fun b => toString (b.foldl Nat.add 0))
    (fun _ => []) (fun _ => []) "t" "t2" "v" "v2" [1] [2]
    [FsEntry.file "a" [5]] [FsEntry.file "a" [9]] rfl rfl

/-- The performance pragmas `Database::new` configures. -/
def dbPragmas : List (String × String) :=
  [("journal_mode", "WAL"), ("synchronous", "NORMAL"),
   ("cache_size", "10000"), ("busy_timeout", "30000"),
   ("wal_autocheckpoint", "1000"), ("mmap_size", "268435456"),
   ("temp_store", "memory")]

/-- The store state `Database::new` acts on: connection configuration,
the set of created schema objects, the rows of each table, and the
derived FTS index contents. -/
structure DbState where
  pragmas : List (String × String)
  objects : List String
  userRows : List String
  documentRows : List String
  activityRows : List String
  auditRows : List AuditLog
  contentRows : List String
  ftsRows : List String
deriving DecidableEq

/-- `CREATE … IF NOT EXISTS`. -/
def createIfAbsent (objs : List String) (name : String) : List String :=
  if name ∈ objs then objs else objs ++ [name]

/-- Every table, trigger and index `create_tables` creates, in statement
order. -/
def schemaObjects : List String :=
  ["users", "documents", "activities", "audit_logs",
   "prevent_audit_log_update", "prevent_audit_log_delete",
   "idx_documents_user_id", "idx_documents_created_at",
   "idx_activities_user_id", "idx_activities_created_at",
   "idx_users_username", "idx_users_email",
   "idx_audit_logs_user_id", "idx_audit_logs_timestamp",
   "idx_audit_logs_action", "idx_audit_logs_resource",
   "idx_audit_logs_current_hash", "idx_audit_logs_sequence_id",
   "document_content", "documents_fts",
   "documents_fts_insert", "documents_fts_update", "documents_fts_delete",
   "idx_document_content_document_id", "idx_document_content_document_type",
   "idx_document_content_indexed_at"]

/-- `create_tables`: creates every missing schema object, touches no table
rows, and rebuilds the derived FTS index from `document_content`. -/
def create_tables (s : DbState) : DbState :=
  { s with objects := schemaObjects.foldl createIfAbsent s.objects,
           ftsRows := s.contentRows }

/-- `Database::new`: opens the store, applies the pragmas, creates the
schema. -/
def Database.new (s : DbState) : DbState :=
  create_tables { s with pragmas := dbPragmas }

/-- `CREATE IF NOT EXISTS` makes the object present. -/
theorem mem_createIfAbsent_self (objs : List String) (n : String) :
    n ∈ createIfAbsent objs n := by
  unfold createIfAbsent
  split
  · assumption
  · simp

/-- `CREATE IF NOT EXISTS` keeps existing objects. -/
theorem mem_createIfAbsent_of_mem (objs : List String) (n m : String)
    (h : m ∈ objs) : m ∈ createIfAbsent objs n := by
  unfold createIfAbsent
  split
  · exact h
  · simp [h]

/-- `CREATE IF NOT EXISTS` of a present object changes nothing. -/
theorem createIfAbsent_of_mem (objs : List String) (n : String)
    (h : n ∈ objs) : createIfAbsent objs n = objs := if_pos h

/-- The creation fold keeps existing objects. -/
theorem mem_foldl_createIfAbsent_of_mem :
    ∀ (names objs : List String) (m : String), m ∈ objs →
      m ∈ names.foldl createIfAbsent objs := by
  intro names
  induction names with
  | nil => intro objs m h; exact h
  | cons n rest ih =>
    intro objs m h
    exact ih (createIfAbsent objs n) m (mem_createIfAbsent_of_mem objs n m h)

/-- The creation fold makes every listed object present. -/
theorem mem_foldl_createIfAbsent :
    ∀ (names objs : List String) (n : String), n ∈ names →
      n ∈ names.foldl createIfAbsent objs := by
  intro names
  induction names with
  | nil => intro objs n h; simp at h
  | cons x rest ih =>
    intro objs n h
    rcases List.mem_cons.mp h with h1 | h2
    · subst h1
      exact mem_foldl_createIfAbsent_of_mem rest (createIfAbsent objs n) n
        (mem_createIfAbsent_self objs n)
    · exact ih (createIfAbsent objs x) n h2

/-- Folding creation over objects that all exist changes nothing. -/
theorem foldl_createIfAbsent_fixed :
    ∀ (names objs : List String), (∀ n ∈ names, n ∈ objs) →
      names.foldl createIfAbsent objs = objs := by
  intro names
  induction names with
  | nil => intro objs _; rfl
  | cons x rest ih =>
    intro objs h
    have hx : x ∈ objs := h x (by simp)
    simp only [List.foldl_cons, createIfAbsent_of_mem objs x hx]
    exact ih objs (fun n hn => h n (by simp [hn]))

/-- The creation fold is idempotent. -/
theorem foldl_createIfAbsent_idem (names objs : List String) :
    names.foldl createIfAbsent (names.foldl createIfAbsent objs) =
      names.foldl createIfAbsent objs :=
  foldl_createIfAbsent_fixed names _
    (fun n hn => mem_foldl_createIfAbsent names objs n hn)

/-- Claim C9: initialization is idempotent — a second `Database::new` on
the same store leaves the schema and all existing rows (of every table,
audit entries included) unchanged relative to the state after the first
call; moreover no call alters any stored rows. -/
theorem database_new_idempotent (s : DbState) :
    Database.new (Database.new s) = Database.new s ∧
    (Database.new s).userRows = s.userRows ∧
    (Database.new s).documentRows = s.documentRows ∧
    (Database.new s).activityRows = s.activityRows ∧
    (Database.new s).auditRows = s.auditRows ∧
    (Database.new s).contentRows = s.contentRows := by
  refine ⟨?_, rfl, rfl, rfl, rfl, rfl⟩
  simp only [Database.new, create_tables]
  rw [foldl_createIfAbsent_idem]

/-- Witness for `verify_chain_scan_spec`: the empty table verifies and
reports no offending row. -/
theorem verify_chain_scan_spec_witness :
    verify_audit_chain id (fun s => some s) ([] : List AuditLog) = some true ∧
    verifyReport id (fun s => some s) ([] : List AuditLog) = some none := by
  have h := verify_chain_scan_spec id (fun s => some s) ([] : List AuditLog)
  refine ⟨h.2.1, ?_⟩
  rw [h.2.2]
  rfl
